import Mathlib

set_option maxRecDepth 8192

/-!
Verification of the markdown-to-RSS generator `scripts/generate_rss.py`.

Strings are modelled as `List Char`. The `re` patterns used by the script are
embedded as executable matchers that follow the Python leftmost, non-greedy and
backtracking semantics, and the `os.path` functions are embedded following
the CPython module posixpath, with the process working directory passed explicitly
(`os.path.abspath` reads it).
-/

namespace GenRss

/-- Strings, modelled as lists of characters. -/
abbrev Str := List Char

/-- The Python `\s` (and `str.strip`) whitespace test, ASCII range. -/
def isSpace (c : Char) : Bool :=
  c == ' ' || c == '\t' || c == '\n' || c == '\r' || c == '\x0b' || c == '\x0c'

/-- Python `str.strip()`: drop whitespace from both ends. -/
def pyStrip (s : Str) : Str :=
  ((s.dropWhile isSpace).reverse.dropWhile isSpace).reverse

/-- Python `str.replace(' ', '%20')`. -/
def encodeSpaces (s : Str) : Str :=
  s.flatMap (fun c => if c = ' ' then ['%', '2', '0'] else [c])

/-- `str.dropWhile` over Python whitespace (the deterministic residue of a
greedy `\s*` whose continuation starts with a non-whitespace literal). -/
def skipSpaces (s : Str) : Str := s.dropWhile isSpace

/-!
## The image pattern `!\[(.*?)\]\((.*?)(?:\s+".*?")?\)`

`re.sub(image_pattern, _replace_image_match, md_content)` from
`replace_md_image_paths` (lines 149-171 of the script).
-/

/-- Inside the optional title, after its opening quote: match `.*?` then `"`
then the final `\)`. By non-greedy backtracking the closing quote is the
first `"` that is immediately followed by `)`; `.` does not cross `\n`.
Returns the rest of the input after the consumed `)`. -/
def matchQuoted : Str → Option Str
  | [] => none
  | c :: rest =>
    if c = '"' ∧ rest.head? = some ')' then some rest.tail
    else if c = '\n' then none
    else matchQuoted rest

/-- The optional title group `\s+".*?"` followed by the closing `\)`.
`\s+` is greedy and its continuation is the literal `"`, so it
deterministically consumes the maximal whitespace run. -/
def matchTitleClose : Str → Option Str
  | [] => none
  | c :: rest =>
    if isSpace c then
      if (skipSpaces rest).head? = some '"' then matchQuoted (skipSpaces rest).tail
      else none
    else none

/-- Continuation after group 2: `(?:\s+".*?")?\)`. The `?` is greedy, so the
title branch is tried before the bare `\)`. -/
def afterG2 (s : Str) : Option Str :=
  match matchTitleClose s with
  | some rest => some rest
  | none => if s.head? = some ')' then some s.tail else none

/-- Group 2 `(.*?)`: non-greedy, so the shortest prefix whose continuation
`afterG2` matches wins; `.` does not cross `\n`. Returns (group 2, rest). -/
def matchG2 : Str → Option (Str × Str)
  | [] => none
  | c :: rest =>
    match afterG2 (c :: rest) with
    | some r => some ([], r)
    | none =>
      if c = '\n' then none
      else (matchG2 rest).map (fun p => (c :: p.1, p.2))

/-- After the opening `![`: group 1 `(.*?)` then the literal `](`, then the
rest of the pattern, with backtracking (a candidate `](` at which group 2
fails is absorbed into group 1 and the scan continues).
Returns (group 1, group 2, rest after the final `)`). -/
def matchAlt : Str → Option (Str × Str × Str)
  | [] => none
  | c :: rest =>
    if h : c = ']' ∧ rest.head? = some '(' then
      match matchG2 rest.tail with
      | some (g2, r) => some ([], g2, r)
      | none => (matchAlt rest).map (fun p => (c :: p.1, p.2.1, p.2.2))
    else
      if c = '\n' then none
      else (matchAlt rest).map (fun p => (c :: p.1, p.2.1, p.2.2))

theorem dropWhile_len_le (p : Char → Bool) (l : Str) :
    (l.dropWhile p).length ≤ l.length := by
  induction l with
  | nil => simp
  | cons c rest ih =>
    rw [List.dropWhile_cons]
    split
    · simp; omega
    · simp

theorem matchQuoted_len : ∀ s r, matchQuoted s = some r → r.length < s.length := by
  intro s
  induction s with
  | nil => intro r h; simp [matchQuoted] at h
  | cons c rest ih =>
    intro r h
    rw [matchQuoted] at h
    split at h
    · rename_i hc
      obtain ⟨hc1, hc2⟩ := hc
      injection h with h
      subst h
      cases rest with
      | nil => simp at hc2
      | cons d r2 => simp; omega
    · split at h
      · simp at h
      · have := ih r h
        simp
        omega

theorem matchTitleClose_len : ∀ s r, matchTitleClose s = some r → r.length < s.length := by
  intro s
  cases s with
  | nil => intro r h; simp [matchTitleClose] at h
  | cons c rest =>
    intro r h
    rw [matchTitleClose] at h
    split at h
    · split at h
      · have h1 := matchQuoted_len _ _ h
        have h2 : (skipSpaces rest).tail.length < (skipSpaces rest).length := by
          rename_i hh
          cases hsk : skipSpaces rest with
          | nil => rw [hsk] at hh; simp at hh
          | cons d r2 => simp
        have h3 : (skipSpaces rest).length ≤ rest.length := dropWhile_len_le isSpace rest
        simp only [List.length_cons]
        omega
      · simp at h
    · simp at h

theorem afterG2_len : ∀ s r, afterG2 s = some r → r.length < s.length := by
  intro s r h
  rw [afterG2] at h
  cases htc : matchTitleClose s with
  | some r2 =>
    rw [htc] at h
    injection h with h
    subst h
    exact matchTitleClose_len _ _ htc
  | none =>
    rw [htc] at h
    simp only [] at h
    split at h
    · rename_i hh
      injection h with h
      subst h
      cases s with
      | nil => simp at hh
      | cons c rest => simp
    · simp at h

theorem matchG2_len : ∀ s g r, matchG2 s = some (g, r) → r.length < s.length := by
  intro s
  induction s using matchG2.induct with
  | case1 => intro g r h; simp [matchG2] at h
  | case2 c rest r2 ha =>
    intro g r h
    rw [matchG2, ha] at h
    simp at h
    obtain ⟨h1, h2⟩ := h
    subst h2
    exact afterG2_len _ _ ha
  | case3 rest ha =>
    intro g r h
    rw [matchG2, ha] at h
    simp at h
  | case4 c rest ha hc ih =>
    intro g r h
    rw [matchG2, ha] at h
    simp only [] at h
    rw [if_neg hc] at h
    cases hm : matchG2 rest with
    | none => rw [hm] at h; simp at h
    | some p =>
      rw [hm] at h
      simp at h
      obtain ⟨h1, h2⟩ := h
      subst h2
      have := ih p.1 p.2 (by rw [hm])
      simp
      omega

theorem matchAlt_len : ∀ s a g r, matchAlt s = some (a, g, r) → r.length < s.length := by
  intro s
  induction s using matchAlt.induct with
  | case1 => intro a g r h; simp [matchAlt] at h
  | case2 c rest hc g2 r2 hm =>
    intro a g r h
    rw [matchAlt] at h
    rw [dif_pos hc, hm] at h
    simp at h
    obtain ⟨h1, h2, h3⟩ := h
    subst h3
    have hlen := matchG2_len _ _ _ hm
    have htl : rest.tail.length ≤ rest.length := by
      cases rest <;> simp
    simp
    omega
  | case3 c rest hc hm ih =>
    intro a g r h
    rw [matchAlt] at h
    rw [dif_pos hc, hm] at h
    cases hm2 : matchAlt rest with
    | none => rw [hm2] at h; simp at h
    | some p =>
      obtain ⟨p1, p2, p3⟩ := p
      rw [hm2] at h
      simp at h
      obtain ⟨h1, h2, h3⟩ := h
      subst h3
      have := ih p1 p2 p3 hm2
      simp
      omega
  | case4 rest hc =>
    intro a g r h
    rw [matchAlt] at h
    rw [dif_neg hc, if_pos rfl] at h
    simp at h
  | case5 c rest hc hnl ih =>
    intro a g r h
    rw [matchAlt] at h
    rw [dif_neg hc, if_neg hnl] at h
    cases hm2 : matchAlt rest with
    | none => rw [hm2] at h; simp at h
    | some p =>
      obtain ⟨p1, p2, p3⟩ := p
      rw [hm2] at h
      simp at h
      obtain ⟨h1, h2, h3⟩ := h
      subst h3
      have := ih p1 p2 p3 hm2
      simp
      omega

/-- The scan loop of `image_pattern.sub(repl, content)`, structured with
explicit fuel so that it is a structural recursion (the fuel is only a
bound on the number of scan steps; `matchAlt_len` shows a match consumes
at least its own length, so `content.length` steps always suffice).
Scan left to right; the pattern can only start at a literal `!` followed
by `[`; non-overlapping matches are replaced, everything else copied. -/
def subImagesF (repl : Str → Str → Str) : Nat → Str → Str
  | 0, s => s
  | _ + 1, [] => []
  | fuel + 1, '!' :: '[' :: rest =>
    (match matchAlt rest with
    | some (alt, g2, r) => repl alt g2 ++ subImagesF repl fuel r
    | none => '!' :: subImagesF repl fuel ('[' :: rest))
  | fuel + 1, c :: rest => c :: subImagesF repl fuel rest

/-- `image_pattern.sub(repl, content)`. -/
def subImages (repl : Str → Str → Str) (content : Str) : Str :=
  subImagesF repl content.length content

/-!
## `os.path` (CPython `posixpath`)

The script runs with the repository root as the process working directory;
`cwd` is passed explicitly wherever CPython reads it (`os.path.abspath`).
-/

/-- `posixpath.join(a, b)`. -/
def pathJoin (a b : Str) : Str :=
  if b.head? = some '/' then b
  else if a = [] ∨ a.getLast? = some '/' then a ++ b
  else a ++ '/' :: b

/-- `p[:p.rfind('/') + 1]`: the prefix of `p` up to and including the last
slash (empty when there is no slash). -/
def takeToLastSlash (p : Str) : Str :=
  (p.reverse.dropWhile (fun c => ¬ c = '/')).reverse

/-- `posixpath.dirname(p)`. -/
def dirname (p : Str) : Str :=
  let head := takeToLastSlash p
  if head ≠ [] ∧ ¬ head.all (fun c => c = '/') then
    (head.reverse.dropWhile (fun c => c = '/')).reverse
  else head

/-- `posixpath.basename(p)`: `p[p.rfind('/') + 1:]`. -/
def basename (p : Str) : Str :=
  (p.reverse.takeWhile (fun c => ¬ c = '/')).reverse

/-- Python `p.split('/')`. -/
def splitSlash : Str → List Str
  | [] => [[]]
  | c :: rest =>
    if c = '/' then [] :: splitSlash rest
    else
      let r := splitSlash rest
      (c :: r.headD []) :: r.tail

/-- Python `'/'.join(comps)`. -/
def joinSlash : List Str → Str
  | [] => []
  | [x] => x
  | x :: xs => x ++ '/' :: joinSlash xs

/-- The component loop of `posixpath.normpath`: skip `''` and `'.'`,
resolve `'..'` against the accumulated components (`acc` holds them in
reverse order). -/
def normAux (initSlashes : Bool) : List Str → List Str → List Str
  | acc, [] => acc.reverse
  | acc, comp :: rest =>
    if comp = [] ∨ comp = ['.'] then normAux initSlashes acc rest
    else if ¬ comp = ['.', '.'] ∨ (¬ initSlashes ∧ acc = []) ∨
        acc.headD [] = ['.', '.'] then
      normAux initSlashes (comp :: acc) rest
    else if acc ≠ [] then normAux initSlashes acc.tail rest
    else normAux initSlashes acc rest

/-- `posixpath.normpath(p)`. -/
def normpath (p : Str) : Str :=
  if p = [] then ['.']
  else
    let slashes : Nat :=
      if p.head? = some '/' then
        if p.take 2 = ['/', '/'] ∧ ¬ p.take 3 = ['/', '/', '/'] then 2 else 1
      else 0
    let comps := normAux (slashes ≠ 0) [] (splitSlash p)
    let res := List.replicate slashes '/' ++ joinSlash comps
    if res = [] then ['.'] else res

/-- `posixpath.abspath(p)` with the process working directory `cwd`. -/
def abspath (cwd p : Str) : Str :=
  if p.head? = some '/' then normpath p else normpath (pathJoin cwd p)

/-- Length of the common prefix of two component lists
(`len(posixpath.commonprefix([a, b]))` on lists). -/
def commonLen : List Str → List Str → Nat
  | x :: xs, y :: ys => if x = y then commonLen xs ys + 1 else 0
  | _, _ => 0

/-- `posixpath.relpath(p, start)` (both are made absolute against `cwd`);
the final `join(*rel_list)` is a left fold of binary `join`. -/
def relpath (cwd p start : Str) : Str :=
  let startList := (splitSlash (abspath cwd start)).filter (fun x => ¬ x = [])
  let pathList := (splitSlash (abspath cwd p)).filter (fun x => ¬ x = [])
  let i := commonLen startList pathList
  let relList := List.replicate (startList.length - i) ['.', '.'] ++ pathList.drop i
  match relList with
  | [] => ['.']
  | x :: xs => xs.foldl pathJoin x

/-- Index of the last occurrence of `c` in `p`, as Python `str.rfind`
(−1 when absent). -/
def rfindIdx (c : Char) (p : Str) : Int :=
  match p.reverse.findIdx? (fun x => x = c) with
  | some j => (p.length : Int) - 1 - j
  | none => -1

/-- `posixpath.splitext(p)`: split off the extension at the last dot, unless
every character between the start of the base name and that dot is a dot. -/
def splitext (p : Str) : Str × Str :=
  let sepIndex := rfindIdx '/' p
  let dotIndex := rfindIdx '.' p
  if sepIndex < dotIndex then
    let fnStart := (sepIndex + 1).toNat
    let dotNat := dotIndex.toNat
    if ((p.drop fnStart).take (dotNat - fnStart)).all (fun c => c = '.') then (p, [])
    else (p.take dotNat, p.drop dotNat)
  else (p, [])

/-!
## Configuration constants and the post transformer (lines 33-51, 136-171)
-/

def RSS_LINK : Str := "https://github.com/itcoffee66/githubweekly".toList

def HTML_OUTPUT_DIR : Str := "asset/html".toList

/-- `_replace_image_match` (lines 152-169): the replacement applied to each
image match, given the alt text (group 1) and the raw path (group 2). -/
def replace_image_match (cwd mdFilePath : Str) (altText group2 : Str) : Str :=
  let imgPath := pyStrip group2
  if ("http://".toList.isPrefixOf imgPath ∨ "https://".toList.isPrefixOf imgPath) then
    '!' :: '[' :: (altText ++ ']' :: '(' :: imgPath ++ [')'])
  else
    let mdDir := dirname mdFilePath
    let absImgPath := abspath cwd (pathJoin mdDir imgPath)
    let repoRoot := abspath cwd ['.', '/']
    let relImgPath := relpath cwd absImgPath repoRoot
    let imgRawLink := RSS_LINK ++ "/raw/main/".toList ++ encodeSpaces relImgPath
    '!' :: '[' :: (altText ++ ']' :: '(' :: imgRawLink ++ [')'])

/-- `replace_md_image_paths(md_content, md_file_path)` (lines 136-171). -/
def replace_md_image_paths (cwd mdFilePath content : Str) : Str :=
  subImages (replace_image_match cwd mdFilePath) content

/-!
## Feed item link / guid (lines 222-226, 325, 343-345)
-/

/-- `html_file_name = os.path.splitext(file_name)[0] + ".html"` (line 224). -/
def htmlFileName (fileName : Str) : Str :=
  (splitext fileName).1 ++ ".html".toList

/-- `item_link` (line 325): also used verbatim as the guid of the item. -/
def itemLink (htmlName : Str) : Str :=
  RSS_LINK ++ "/raw/main/".toList ++ HTML_OUTPUT_DIR ++ '/' :: encodeSpaces htmlName

/-- The guid of the feed item generated for a markdown file path: the link to
the HTML artifact derived from the base name of the file alone. -/
def guidOfPath (filePath : Str) : Str :=
  itemLink (htmlFileName (basename filePath))

/-!
## The `<description>` element (lines 332-341)
-/

/-- `item_description` (lines 333-337): the metadata description when
non-empty, otherwise the first 200 characters of the RSS HTML plus `"..."`. -/
def item_description (desc rssHtml : Str) : Str :=
  if desc ≠ [] then desc else rssHtml.take 200 ++ "...".toList

/-- `desc_elem.text` (lines 339-341): the text actually stored in the
`<description>` element. -/
def desc_elem_text (desc rssHtml : Str) : Str :=
  if desc ≠ [] then item_description desc rssHtml else rssHtml

/-!
## Front matter: `parse_md_metadata` (lines 73-115)

The block pattern is `^---\s*\n(.*?)\n---\s*\n` with `re.DOTALL`; each field
is then extracted by `re.search(r'key:\s*["\'](.*?)["\']')`.
-/

/-- All ways to split a `\s*\n` prefix off `s` (the suffixes after the
consumed newline), longest whitespace run first — the order in which a
greedy `\s*` followed by a literal `\n` tries them. -/
def wsNlSplits : Str → List Str
  | [] => []
  | c :: rest =>
    if c = '\n' then wsNlSplits rest ++ [rest]
    else if isSpace c then wsNlSplits rest
    else []

/-- The non-greedy scan of group 1 `(.*?)` (DOTALL): find the first position
at which `\n---` followed by `\s*\n` matches; `acc` holds the group so far,
reversed. Returns (group 1, rest of the string after the whole match). -/
def scanInner (acc : Str) : Str → Option (Str × Str)
  | [] => none
  | c :: rest =>
    if ['\n', '-', '-', '-'].isPrefixOf (c :: rest) then
      match (wsNlSplits ((c :: rest).drop 4)).head? with
      | some rem => some (acc.reverse, rem)
      | none => scanInner (c :: acc) rest
    else scanInner (c :: acc) rest

/-- `meta_pattern.match(md_content)` for `^---\s*\n(.*?)\n---\s*\n`:
group 1 and the remainder of the string after the match. -/
def metaMatch (md : Str) : Option (Str × Str) :=
  if ['-', '-', '-'].isPrefixOf md then
    (wsNlSplits (md.drop 3)).findSome? (fun rest => scanInner [] rest)
  else none

/-- Value scan `(.*?)["\']` after the opening quote: shortest run of
non-newline characters up to either quote character. -/
def scanValue (acc : Str) : Str → Option Str
  | [] => none
  | c :: rest =>
    if c = '"' ∨ c = '\'' then some acc.reverse
    else if c = '\n' then none
    else scanValue (c :: acc) rest

/-- After the key: `\s*["\'](.*?)["\']` (the greedy `\s*` must end at a
quote, so it deterministically takes the maximal whitespace run). -/
def fieldValueAt (s : Str) : Option Str :=
  match skipSpaces s with
  | [] => none
  | c :: rest => if c = '"' ∨ c = '\'' then scanValue [] rest else none

/-- `re.search` for the field pattern: the literal `key`, then `\s*`, then a
quote (double or single), then the non-greedy value, then a closing quote
(double or single). Positions are scanned left to right and the first
successful match wins. -/
def searchField (key : Str) : Str → Option Str
  | [] => none
  | c :: rest =>
    if key.isPrefixOf (c :: rest) then
      match fieldValueAt ((c :: rest).drop key.length) with
      | some v => some v
      | none => searchField key rest
    else searchField key rest

/-- Parsed front-matter metadata. -/
structure Meta where
  title : Str
  date : Str
  description : Str
deriving DecidableEq, Repr

/-- The default title `"未命名文章"`. -/
def defaultTitle : Str := "未命名文章".toList

/-- `parse_md_metadata(md_content)` (lines 73-115); `today` stands for
`datetime.utcnow().strftime("%Y-%m-%d")`. -/
def parse_md_metadata (today md : Str) : Meta × Str :=
  match metaMatch md with
  | none => (⟨defaultTitle, today, []⟩, md)
  | some (inner, rest) =>
    let t := (searchField "title:".toList inner).getD defaultTitle
    let d := (searchField "date:".toList inner).getD today
    let desc := (searchField "description:".toList inner).getD []
    (⟨t, d, desc⟩, pyStrip rest)

/-!
## Dates: `convert_date_to_rfc822` (lines 118-133)

`datetime.strptime(date_str, "%Y-%m-%d")` matches the regex of `_strptime`
(`%Y` = `\d\d\d\d`, `%m` = `1[0-2]|0[1-9]|[1-9]`,
`%d` = `3[01]|[12]\d|0[1-9]|[1-9]`, whole string), then `datetime`
validates the calendar day (years 1..9999). `strftime` renders `%a`/`%b`
from the proleptic-Gregorian ordinal.
-/

def isDigit (c : Char) : Bool := '0' ≤ c ∧ c ≤ '9'

def digitVal (c : Char) : Nat := c.toNat - 48

/-- `%Y`: exactly four digits. -/
def parseY4 : Str → Option (Nat × Str)
  | a :: b :: c :: d :: rest =>
    if isDigit a ∧ isDigit b ∧ isDigit c ∧ isDigit d then
      some (((digitVal a * 10 + digitVal b) * 10 + digitVal c) * 10 + digitVal d, rest)
    else none
  | _ => none

/-- Does the head of the string satisfy the test. -/
def headIs (p : Char → Bool) : Str → Bool
  | [] => false
  | x :: _ => p x

/-- `%m`: `1[0-2]|0[1-9]|[1-9]`, alternatives tried in order. -/
def parseMonth : Str → Option (Nat × Str)
  | [] => none
  | c :: rest =>
    if c = '1' && headIs (fun x => x = '0' || x = '1' || x = '2') rest then
      some (10 + digitVal (rest.headD '0'), rest.tail)
    else if c = '0' && headIs (fun x => decide ('1' ≤ x) && decide (x ≤ '9')) rest then
      some (digitVal (rest.headD '0'), rest.tail)
    else if '1' ≤ c ∧ c ≤ '9' then some (digitVal c, rest)
    else none

/-- `%d`: `3[01]|[12]\d|0[1-9]|[1-9]`, alternatives tried in order. -/
def parseDay : Str → Option (Nat × Str)
  | [] => none
  | c :: rest =>
    if c = '3' && headIs (fun x => x = '0' || x = '1') rest then
      some (30 + digitVal (rest.headD '0'), rest.tail)
    else if (c = '1' || c = '2') && headIs isDigit rest then
      some (digitVal c * 10 + digitVal (rest.headD '0'), rest.tail)
    else if c = '0' && headIs (fun x => decide ('1' ≤ x) && decide (x ≤ '9')) rest then
      some (digitVal (rest.headD '0'), rest.tail)
    else if '1' ≤ c ∧ c ≤ '9' then some (digitVal c, rest)
    else none

def isLeap (y : Nat) : Bool := (y % 4 = 0 ∧ ¬ y % 100 = 0) ∨ y % 400 = 0

def daysInMonth (y m : Nat) : Nat :=
  if m = 2 then (if isLeap y then 29 else 28)
  else if m = 4 ∨ m = 6 ∨ m = 9 ∨ m = 11 then 30 else 31

/-- `datetime.strptime(s, "%Y-%m-%d")`: the format regex must consume the
whole string, then `datetime(y, m, d)` validates the calendar day. -/
def strptimeYmd (s : Str) : Option (Nat × Nat × Nat) :=
  match parseY4 s with
  | none => none
  | some (y, r1) =>
    if r1.head? = some '-' then
      match parseMonth r1.tail with
      | none => none
      | some (m, r3) =>
        if r3.head? = some '-' then
          match parseDay r3.tail with
          | none => none
          | some (d, r5) =>
            if r5 = [] ∧ 1 ≤ y ∧ d ≤ daysInMonth y m then some (y, m, d) else none
        else none
    else none

def daysBeforeMonth (m : Nat) : Nat :=
  [0, 31, 59, 90, 120, 151, 181, 212, 243, 273, 304, 334].getD (m - 1) 0

/-- `date.toordinal()`: day number in the proleptic Gregorian calendar,
ordinal 1 = January 1 of year 1. -/
def toOrdinal (y m d : Nat) : Nat :=
  365 * (y - 1) + (y - 1) / 4 + (y - 1) / 400 - (y - 1) / 100
    + daysBeforeMonth m + (if 2 < m ∧ isLeap y then 1 else 0) + d

/-- `%a` names; `datetime.weekday()` is `(toordinal + 6) % 7`, Monday = 0. -/
def weekdayAbbrev : List Str :=
  ["Mon".toList, "Tue".toList, "Wed".toList, "Thu".toList,
   "Fri".toList, "Sat".toList, "Sun".toList]

/-- `%b` names. -/
def monthAbbrev : List Str :=
  ["Jan".toList, "Feb".toList, "Mar".toList, "Apr".toList, "May".toList,
   "Jun".toList, "Jul".toList, "Aug".toList, "Sep".toList, "Oct".toList,
   "Nov".toList, "Dec".toList]

/-- Two-digit zero-padded field (`%d`, `%m`, `%H`, `%M`, `%S`). -/
def pad2 (n : Nat) : Str := [Nat.digitChar (n / 10 % 10), Nat.digitChar (n % 10)]

/-- Four-digit zero-padded field, the `YYYY` of a well-formed date. -/
def pad4 (n : Nat) : Str :=
  [Nat.digitChar (n / 1000 % 10), Nat.digitChar (n / 100 % 10),
   Nat.digitChar (n / 10 % 10), Nat.digitChar (n % 10)]

/-- `%Y` as rendered by `strftime` (unpadded decimal). -/
def natStr (n : Nat) : Str := (Nat.repr n).toList

/-- `date_obj.strftime("%a, %d %b %Y 00:00:00 GMT")`. -/
def fmt822 (y m d : Nat) : Str :=
  (weekdayAbbrev.getD ((toOrdinal y m d + 6) % 7) []) ++ ", ".toList
    ++ pad2 d ++ ' ' :: (monthAbbrev.getD (m - 1) []) ++ ' ' :: natStr y
    ++ " 00:00:00 GMT".toList

/-- A UTC wall-clock instant, standing for `datetime.utcnow()`. -/
structure UtcTime where
  year : Nat
  month : Nat
  day : Nat
  hour : Nat
  minute : Nat
  second : Nat

/-- `datetime.utcnow().strftime("%a, %d %b %Y %H:%M:%S GMT")`. -/
def fmtNow (t : UtcTime) : Str :=
  (weekdayAbbrev.getD ((toOrdinal t.year t.month t.day + 6) % 7) []) ++ ", ".toList
    ++ pad2 t.day ++ ' ' :: (monthAbbrev.getD (t.month - 1) []) ++ ' ' :: natStr t.year
    ++ ' ' :: (pad2 t.hour ++ ':' :: pad2 t.minute ++ ':' :: pad2 t.second)
    ++ " GMT".toList

/-- `convert_date_to_rfc822(date_str)` (lines 118-133); `now` stands for
`datetime.utcnow()` in the fallback branch. -/
def convert_date_to_rfc822 (now : UtcTime) (dateStr : Str) : Str :=
  match strptimeYmd dateStr with
  | some (y, m, d) => fmt822 y m d
  | none => fmtNow now

/-!
## File discovery: the `os.walk` loop (lines 304-313)
-/

/-- A directory tree: named subdirectories and file names. -/
inductive FTree where
  | node : List (Str × FTree) → List Str → FTree

mutual

/-- All files under the tree, in `os.walk` top-down order, as
(full path, file name) pairs; paths are joined with `os.path.join`. -/
def allEntries (p : Str) : FTree → List (Str × Str)
  | .node dirs files =>
    files.map (fun f => (pathJoin p f, f)) ++ allEntriesDirs p dirs

/-- The recursion of `allEntries` over the subdirectory list. -/
def allEntriesDirs (p : Str) : List (Str × FTree) → List (Str × Str)
  | [] => []
  | (d, t) :: rest => allEntries (pathJoin p d) t ++ allEntriesDirs p rest

end

/-- The filter of the walk loop (line 307):
`file_name.endswith(".md") and not file_name.startswith(".")`. -/
def mdKeep (f : Str) : Bool :=
  ".md".toList.isSuffixOf f && ! ['.'].isPrefixOf f

mutual

/-- The paths processed by the walk loop of `generate_rss_and_html`
(lines 305-308): for each directory, the kept files joined to the
directory path, then the subdirectories in order. -/
def processedPaths (p : Str) : FTree → List Str
  | .node dirs files =>
    (files.filter mdKeep).map (fun f => pathJoin p f) ++ processedDirs p dirs

/-- The recursion of `processedPaths` over the subdirectory list. -/
def processedDirs (p : Str) : List (Str × FTree) → List Str
  | [] => []
  | (d, t) :: rest => processedPaths (pathJoin p d) t ++ processedDirs p rest

end

/-- A directory tree with two files of the same base name in different
subdirectories (for guid collisions). -/
def sameNameTree : FTree :=
  .node [("a".toList, .node [] ["x.md".toList]),
         ("b".toList, .node [] ["x.md".toList])] []

/-!
## Theorems
-/

theorem dropWhile_append_of_all {p : Char → Bool} :
    ∀ (sp z : Str), (∀ c ∈ sp, p c) → (sp ++ z).dropWhile p = z.dropWhile p := by
  intro sp z hsp
  induction sp with
  | nil => simp
  | cons c rest ih =>
    have hc : p c := hsp c (by simp)
    simp only [List.cons_append, List.dropWhile_cons, hc, if_pos]
    exact ih (fun d hd => hsp d (by simp [hd]))

theorem dropWhile_eq_self_of_head {p : Char → Bool} :
    ∀ (x : Str), (∀ h : x ≠ [], ¬ p (x.head h)) → x.dropWhile p = x := by
  intro x hx
  cases x with
  | nil => simp
  | cons c rest =>
    have := hx (by simp)
    simp at this
    simp [List.dropWhile_cons, this]

/-- `str.strip` around a string with non-whitespace first and last characters
removes exactly the whitespace padding. -/
theorem pyStrip_sandwich (sp1 x sp2 : Str)
    (h1 : ∀ c ∈ sp1, isSpace c) (h2 : ∀ c ∈ sp2, isSpace c)
    (hx : x ≠ []) (hhd : ∀ h : x ≠ [], ¬ isSpace (x.head h))
    (hlast : ∀ h : x ≠ [], ¬ isSpace (x.getLast h)) :
    pyStrip (sp1 ++ x ++ sp2) = x := by
  rw [pyStrip, List.append_assoc, dropWhile_append_of_all sp1 _ h1]
  rw [dropWhile_eq_self_of_head (x ++ sp2)
    (by
      intro hne
      cases x with
      | nil => exact absurd rfl hx
      | cons c r =>
        simp only [List.cons_append, List.head_cons]
        exact hhd (by simp))]
  rw [List.reverse_append, dropWhile_append_of_all sp2.reverse _
    (by intro c hc; exact h2 c (by simpa using hc))]
  rw [dropWhile_eq_self_of_head x.reverse
    (by
      intro hne
      have hx2 : x.reverse ≠ [] := hne
      rw [List.head_reverse]
      exact hlast (by simpa using hne))]
  simp

/-- `str.strip` of a string made of non-whitespace first and last characters
is the string itself. -/
theorem pyStrip_self (x : Str)
    (hhd : ∀ h : x ≠ [], ¬ isSpace (x.head h))
    (hlast : ∀ h : x ≠ [], ¬ isSpace (x.getLast h)) :
    pyStrip x = x := by
  cases x with
  | nil => rfl
  | cons c r =>
    have := pyStrip_sandwich [] (c :: r) [] (by simp) (by simp) (by simp) hhd hlast
    simpa using this

theorem skipSpaces_lands :
    ∀ (q z : Str), (∃ c ∈ q, ¬ isSpace c) →
      ∃ d r, skipSpaces (q ++ z) = d :: r ∧ d ∈ q ∧ ¬ isSpace d := by
  intro q z hq
  induction q with
  | nil => simp at hq
  | cons c rest ih =>
    by_cases hc : isSpace c
    · obtain ⟨d, hd, hds⟩ := hq
      simp at hd
      rcases hd with hd | hd
      · subst hd; exact absurd hc hds
      · have ⟨d2, r2, h1, h2, h3⟩ := ih ⟨d, hd, hds⟩
        refine ⟨d2, r2, ?_, by simp [h2], h3⟩
        simpa [skipSpaces, List.dropWhile_cons, hc] using h1
    · refine ⟨c, rest ++ z, ?_, by simp, hc⟩
      simp [skipSpaces, List.dropWhile_cons, hc]

/-- Group 2 consumes every character that is not `)`, `"` or a newline, and
stops at the first unguarded `)`. -/
theorem matchG2_plain :
    ∀ (q tail : Str), (∀ c ∈ q, ¬ c = ')' ∧ ¬ c = '"' ∧ ¬ c = '\n') →
      matchG2 (q ++ ')' :: tail) = some (q, tail) := by
  intro q
  induction q with
  | nil =>
    intro tail _
    rw [List.nil_append, matchG2]
    have hafter : afterG2 (')' :: tail) = some tail := by
      rw [afterG2]
      have htc : matchTitleClose (')' :: tail) = none := by
        rw [matchTitleClose]
        rw [if_neg (by decide : ¬ isSpace ')' = true)]
      rw [htc]
      simp
    rw [hafter]
  | cons c rest ih =>
    intro tail hq
    have hc := hq c (by simp)
    have hrest : ∀ d ∈ rest, ¬ d = ')' ∧ ¬ d = '"' ∧ ¬ d = '\n' :=
      fun d hd => hq d (by simp [hd])
    rw [List.cons_append, matchG2]
    have hafter : afterG2 (c :: (rest ++ ')' :: tail)) = none := by
      rw [afterG2]
      have htc : matchTitleClose (c :: (rest ++ ')' :: tail)) = none := by
        rw [matchTitleClose]
        by_cases hsp : isSpace c
        · rw [if_pos hsp]
          have hnq : ∀ d ∈ rest, ¬ d = '"' := fun d hd => (hrest d hd).2.1
          have hhead : ¬ (skipSpaces (rest ++ ')' :: tail)).head? = some '"' := by
            by_cases hrw : ∃ x ∈ rest, ¬ isSpace x
            · obtain ⟨d2, r3, hs1, hs2, _⟩ := skipSpaces_lands rest (')' :: tail) hrw
              rw [hs1]
              simp
              exact hnq _ hs2
            · push_neg at hrw
              have heq2 : skipSpaces (rest ++ ')' :: tail) = ')' :: tail := by
                rw [skipSpaces, dropWhile_append_of_all rest _ hrw]
                rw [List.dropWhile_cons, if_neg (by decide : ¬ isSpace ')' = true)]
              rw [heq2]
              simp only [List.head?_cons, Option.some.injEq]
              decide
          rw [if_neg hhead]
        · rw [if_neg hsp]
      rw [htc]
      simp [hc.1]
    rw [hafter]
    have hnl : ¬ c = '\n' := hc.2.2
    simp only [if_neg hnl]
    rw [ih tail hrest]
    rfl

theorem matchQuoted_run :
    ∀ (t tail : Str), (∀ c ∈ t, ¬ c = '"' ∧ ¬ c = '\n') →
      matchQuoted (t ++ '"' :: ')' :: tail) = some tail := by
  intro t
  induction t with
  | nil =>
    intro tail _
    rw [List.nil_append, matchQuoted]
    rw [if_pos ⟨rfl, rfl⟩]
    rfl
  | cons c t2 ih =>
    intro tail ht
    have hc := ht c (by simp)
    rw [List.cons_append, matchQuoted]
    rw [if_neg (by intro hx; exact hc.1 hx.1)]
    rw [if_neg hc.2]
    exact ih tail (fun d hd => ht d (by simp [hd]))

theorem matchTitleClose_run :
    ∀ (ws t tail : Str), ws ≠ [] → (∀ c ∈ ws, isSpace c) →
      (∀ c ∈ t, ¬ c = '"' ∧ ¬ c = '\n') →
      matchTitleClose (ws ++ '"' :: (t ++ '"' :: ')' :: tail)) = some tail := by
  intro ws t tail hne hws ht
  cases ws with
  | nil => exact absurd rfl hne
  | cons w ws2 =>
    rw [List.cons_append, matchTitleClose]
    rw [if_pos (hws w (by simp))]
    have hskip : skipSpaces (ws2 ++ '"' :: (t ++ '"' :: ')' :: tail))
        = '"' :: (t ++ '"' :: ')' :: tail) := by
      rw [skipSpaces, dropWhile_append_of_all ws2 _ (fun d hd => hws d (by simp [hd]))]
      rw [List.dropWhile_cons, if_neg (by decide : ¬ isSpace '"' = true)]
    rw [hskip]
    rw [if_pos (by simp)]
    show matchQuoted (t ++ '"' :: ')' :: tail) = some tail
    exact matchQuoted_run t tail ht

theorem afterG2_title :
    ∀ (ws t tail : Str), ws ≠ [] → (∀ c ∈ ws, isSpace c) →
      (∀ c ∈ t, ¬ c = '"' ∧ ¬ c = '\n') →
      afterG2 (ws ++ '"' :: (t ++ '"' :: ')' :: tail)) = some tail := by
  intro ws t tail hne hws ht
  rw [afterG2, matchTitleClose_run ws t tail hne hws ht]

/-- With a well-formed quoted title after the path, group 2 stops right at the
start of the whitespace that precedes the title. -/
theorem matchG2_title :
    ∀ (q ws t tail : Str),
      (∀ c ∈ q, ¬ c = ')' ∧ ¬ c = '"' ∧ ¬ c = '\n') →
      (∀ h : q ≠ [], ¬ isSpace (q.getLast h)) →
      ws ≠ [] → (∀ c ∈ ws, isSpace c) →
      (∀ c ∈ t, ¬ c = '"' ∧ ¬ c = '\n') →
      matchG2 (q ++ (ws ++ '"' :: (t ++ '"' :: ')' :: tail))) = some (q, tail) := by
  intro q
  induction q with
  | nil =>
    intro ws t tail _ _ hne hws ht
    rw [List.nil_append]
    cases ws with
    | nil => exact absurd rfl hne
    | cons w ws2 =>
      rw [List.cons_append, matchG2]
      have h2 := afterG2_title (w :: ws2) t tail (by simp) hws ht
      rw [List.cons_append] at h2
      rw [h2]
  | cons c q2 ih =>
    intro ws t tail hq hlast hne hws ht
    have hc := hq c (by simp)
    have hq2 : ∀ d ∈ q2, ¬ d = ')' ∧ ¬ d = '"' ∧ ¬ d = '\n' :=
      fun d hd => hq d (by simp [hd])
    rw [List.cons_append, matchG2]
    have hafter : afterG2 (c :: (q2 ++ (ws ++ '"' :: (t ++ '"' :: ')' :: tail)))) = none := by
      rw [afterG2]
      have htc : matchTitleClose
          (c :: (q2 ++ (ws ++ '"' :: (t ++ '"' :: ')' :: tail)))) = none := by
        rw [matchTitleClose]
        by_cases hsp : isSpace c
        · cases q2 with
          | nil =>
            have h3 := hlast (by simp)
            simp at h3
            simp [h3] at hsp
          | cons e q3 =>
            rw [if_pos hsp]
            have hlq : ¬ isSpace ((e :: q3).getLast (by simp)) := by
              have h3 := hlast (by simp)
              rwa [List.getLast_cons] at h3
            have hex : ∃ x ∈ e :: q3, ¬ isSpace x :=
              ⟨(e :: q3).getLast (by simp), List.getLast_mem _, hlq⟩
            obtain ⟨d, r, hs1, hs2, hs3⟩ :=
              skipSpaces_lands (e :: q3) (ws ++ '"' :: (t ++ '"' :: ')' :: tail)) hex
            have hd : ¬ d = '"' := (hq2 d hs2).2.1
            rw [if_neg (by
              rw [hs1]
              simp only [List.head?_cons, Option.some.injEq]
              exact hd)]
        · rw [if_neg hsp]
      rw [htc]
      simp [hc.1]
    rw [hafter]
    rw [if_neg hc.2.2]
    rw [ih ws t tail hq2 ?hl hne hws ht]
    · rfl
    case hl =>
      intro hq2ne
      have h3 := hlast (by simp)
      rwa [List.getLast_cons] at h3

/-- Group 1 takes exactly the alt text when the alt text contains no `]` and
no newline and group 2 succeeds after the literal `](`. -/
theorem matchAlt_structured :
    ∀ (alt inner g2 r : Str), (∀ c ∈ alt, ¬ c = ']' ∧ ¬ c = '\n') →
      matchG2 inner = some (g2, r) →
      matchAlt (alt ++ ']' :: '(' :: inner) = some (alt, g2, r) := by
  intro alt
  induction alt with
  | nil =>
    intro inner g2 r _ hm
    rw [List.nil_append, matchAlt]
    rw [dif_pos ⟨rfl, rfl⟩]
    show (match matchG2 inner with
      | some (g2, r) => some (([] : Str), g2, r)
      | none => (matchAlt (('(' :: inner))).map
          (fun p => (']' :: p.1, p.2.1, p.2.2))) = some ([], g2, r)
    rw [hm]
  | cons c alt2 ih =>
    intro inner g2 r halt hm
    have hc := halt c (by simp)
    rw [List.cons_append, matchAlt]
    rw [dif_neg (by intro hx; exact hc.1 hx.1)]
    rw [if_neg hc.2]
    rw [ih inner g2 r (fun d hd => halt d (by simp [hd])) hm]
    rfl

/-- A content string that is one image reference is rewritten to exactly the
replacement of its two groups. -/
theorem subImages_single (repl : Str → Str → Str) (rest alt g2 : Str)
    (h : matchAlt rest = some (alt, g2, [])) :
    subImages repl ('!' :: '[' :: rest) = repl alt g2 := by
  rw [subImages]
  show subImagesF repl (rest.length + 1 + 1) ('!' :: '[' :: rest) = repl alt g2
  rw [subImagesF, h]
  show repl alt g2 ++ subImagesF repl (rest.length + 1) [] = repl alt g2
  rw [subImagesF]
  simp

/-- The network branch of `_replace_image_match`: the reference is rebuilt
from the alt text and the stripped path. -/
theorem replace_image_match_net (cwd mdp alt g2 : Str)
    (hnet : "http://".toList.isPrefixOf (pyStrip g2)
      ∨ "https://".toList.isPrefixOf (pyStrip g2)) :
    replace_image_match cwd mdp alt g2
      = '!' :: '[' :: (alt ++ ']' :: '(' :: (pyStrip g2 ++ [')'])) := by
  simp only [replace_image_match]
  rw [if_pos hnet]
  simp

/-- The non-network branch of `_replace_image_match`: the reference is rebuilt
from the alt text and the raw GitHub URL of the resolved path. -/
theorem replace_image_match_rel (cwd mdp alt g2 : Str)
    (hnet : ¬ ("http://".toList.isPrefixOf (pyStrip g2)
      ∨ "https://".toList.isPrefixOf (pyStrip g2))) :
    replace_image_match cwd mdp alt g2
      = '!' :: '[' :: (alt ++ ']' :: '(' ::
          (RSS_LINK ++ "/raw/main/".toList ++
            encodeSpaces (relpath cwd (abspath cwd (pathJoin (dirname mdp) (pyStrip g2)))
              (abspath cwd ['.', '/'])) ++ [')'])) := by
  simp only [replace_image_match]
  rw [if_neg hnet]
  simp

/-- Claim C2, amended: a network-scheme image reference keeps its alt text and
its whitespace-stripped path, but is normalised to `![alt](path)`: any
whitespace around the path and any trailing quoted title are removed. -/
theorem claim_c2_amended (cwd mdp alt path sp1 tailPart : Str)
    (halt : ∀ c ∈ alt, ¬ c = ']' ∧ ¬ c = '\n')
    (hnet : "http://".toList.isPrefixOf path ∨ "https://".toList.isPrefixOf path)
    (hpath : ∀ c ∈ path, ¬ isSpace c ∧ ¬ c = ')' ∧ ¬ c = '"')
    (hsp1 : ∀ c ∈ sp1, isSpace c ∧ ¬ c = '\n')
    (htail : (∀ c ∈ tailPart, isSpace c ∧ ¬ c = '\n') ∨
      (∃ ws t, tailPart = ws ++ '"' :: t ++ ['"'] ∧ ws ≠ [] ∧
        (∀ c ∈ ws, isSpace c) ∧ (∀ c ∈ t, ¬ c = '"' ∧ ¬ c = '\n'))) :
    replace_md_image_paths cwd mdp
        ('!' :: '[' :: (alt ++ ']' :: '(' :: (sp1 ++ path ++ tailPart ++ [')'])))
      = '!' :: '[' :: (alt ++ ']' :: '(' :: (path ++ [')'])) := by
  have hpne : path ≠ [] := by
    rcases hnet with hn | hn <;>
      · rw [List.isPrefixOf_iff_prefix] at hn
        intro he
        subst he
        simp at hn
  have hphead : ∀ h : path ≠ [], ¬ isSpace (path.head h) :=
    fun h => (hpath _ (List.head_mem h)).1
  have hplast : ∀ h : path ≠ [], ¬ isSpace (path.getLast h) :=
    fun h => (hpath _ (List.getLast_mem h)).1
  have hplain : ∀ c ∈ sp1 ++ path, ¬ c = ')' ∧ ¬ c = '"' ∧ ¬ c = '\n' := by
    intro c hcm
    rcases List.mem_append.1 hcm with hcs | hcp
    · obtain ⟨hs, hn⟩ := hsp1 c hcs
      refine ⟨?_, ?_, hn⟩ <;> intro he <;> subst he <;> revert hs <;> decide
    · have h2 := hpath c hcp
      exact ⟨h2.2.1, h2.2.2, by intro he; subst he; exact h2.1 (by decide)⟩
  have hmain : ∃ g2v, matchG2 (sp1 ++ path ++ tailPart ++ [')']) = some (g2v, [])
      ∧ pyStrip g2v = path := by
    rcases htail with hsp2 | ⟨ws, t, rfl, hwne, hws, ht⟩
    · refine ⟨sp1 ++ path ++ tailPart, ?_, ?_⟩
      · have he : sp1 ++ path ++ tailPart ++ [')']
            = (sp1 ++ path ++ tailPart) ++ ')' :: ([] : Str) := by simp
        rw [he]
        refine matchG2_plain (sp1 ++ path ++ tailPart) [] ?_
        intro c hcm
        rcases List.mem_append.1 hcm with hcm2 | hcs2
        · exact hplain c hcm2
        · obtain ⟨hs, hn⟩ := hsp2 c hcs2
          refine ⟨?_, ?_, hn⟩ <;> intro he2 <;> subst he2 <;> revert hs <;> decide
      · exact pyStrip_sandwich sp1 path tailPart (fun c hc => (hsp1 c hc).1)
          (fun c hc => (hsp2 c hc).1) hpne hphead hplast
    · refine ⟨sp1 ++ path, ?_, ?_⟩
      · have he : sp1 ++ path ++ (ws ++ '"' :: t ++ ['"']) ++ [')']
            = (sp1 ++ path) ++ (ws ++ '"' :: (t ++ '"' :: ')' :: ([] : Str))) := by
          simp
        rw [he]
        refine matchG2_title (sp1 ++ path) ws t [] hplain ?_ hwne hws ht
        intro hne
        rw [List.getLast_append_of_ne_nil hpne]
        exact hplast hpne
      · have h2 := pyStrip_sandwich sp1 path [] (fun c hc => (hsp1 c hc).1)
          (by simp) hpne hphead hplast
        simpa using h2
  obtain ⟨g2v, hg2, hstrip⟩ := hmain
  have halt2 := matchAlt_structured alt (sp1 ++ path ++ tailPart ++ [')']) g2v [] halt hg2
  rw [replace_md_image_paths]
  rw [subImages_single (replace_image_match cwd mdp) _ alt g2v halt2]
  rw [replace_image_match_net cwd mdp alt g2v (by rw [hstrip]; exact hnet), hstrip]


/-- Claim C1: the spec says that when the metadata description is empty the
description element holds a 200-character excerpt of the rendered HTML.
The code computes that excerpt (`item_description`, line 334) but then stores
the full rendered HTML in the element (line 341): at an empty description and
a 300-character rendered body the element text is the whole body, not the
excerpt the neighbouring expression computes. -/
theorem claim_c1_code_divergence :
    desc_elem_text [] (List.replicate 300 'a') = List.replicate 300 'a' ∧
    desc_elem_text [] (List.replicate 300 'a') ≠
      item_description [] (List.replicate 300 'a') := by
  refine ⟨rfl, ?_⟩
  intro h
  have := congrArg List.length h
  simp [item_description, desc_elem_text] at this

/-- Claim C2 counterexample: an image reference with a network-scheme path and
a trailing quoted title is not left unchanged — the title is dropped. -/
theorem claim_c2_counterexample :
    replace_md_image_paths "/repo".toList "post/a.md".toList
        "![x](http://a.png \"t\")".toList
      ≠ "![x](http://a.png \"t\")".toList := by
  decide

/-- Claim C3 counterexample: two distinct markdown files with the same base
name in different subdirectories are both discovered by the walk, yet get
the same guid (the guid depends only on the base name). -/
theorem claim_c3_counterexample :
    processedPaths "post".toList sameNameTree
        = ["post/a/x.md".toList, "post/b/x.md".toList] ∧
    "post/a/x.md".toList ≠ "post/b/x.md".toList ∧
    guidOfPath "post/a/x.md".toList = guidOfPath "post/b/x.md".toList := by
  refine ⟨by decide, by decide, by decide⟩

/-- Claim C9 counterexample: `replace_md_image_paths` is not idempotent.
For `![a](y<TAB>"t"/)` the first pass rewrites the path into a raw URL
ending in `y<TAB>"t"`; on the second pass the tab-quote sequence inside
that URL parses as a quoted title, which is dropped again. -/
theorem claim_c9_counterexample :
    replace_md_image_paths "/repo".toList "a.md".toList
        (replace_md_image_paths "/repo".toList "a.md".toList
          "![a](y\t\"t\"/)".toList)
      ≠ replace_md_image_paths "/repo".toList "a.md".toList
          "![a](y\t\"t\"/)".toList := by
  decide

/-- Claim C10: the front-matter field regex accepts mismatched quote
delimiters: a title opened with a double quote and closed with a single
quote is still extracted (and is not the default placeholder). -/
theorem claim_c10_mismatched_quotes (today : Str) :
    (parse_md_metadata today "---\ntitle: \"Hello'\n---\nbody".toList).1.title
        = "Hello".toList ∧
    (parse_md_metadata today "---\ntitle: \"Hello'\n---\nbody".toList).1.title
        ≠ defaultTitle := by
  refine ⟨rfl, ?_⟩
  intro h
  rw [show (parse_md_metadata today "---\ntitle: \"Hello'\n---\nbody".toList).1.title
      = "Hello".toList from rfl] at h
  exact absurd h (by decide)

/-!
## Path lemmas

Facts about the posixpath embedding on slash-free, dot-free components: these
drive the relative-image-path claims.
-/

theorem joinSlash_cons_cons (x y : Str) (r : List Str) :
    joinSlash (x :: y :: r) = x ++ '/' :: joinSlash (y :: r) := rfl

theorem joinSlash_append (a b : List Str) (hb : b ≠ []) :
    a ≠ [] → joinSlash (a ++ b) = joinSlash a ++ '/' :: joinSlash b := by
  induction a with
  | nil => intro ha; exact absurd rfl ha
  | cons x xs ih =>
    intro _
    cases xs with
    | nil =>
      cases b with
      | nil => exact absurd rfl hb
      | cons y ys => rw [List.cons_append, List.nil_append, joinSlash_cons_cons, joinSlash]
    | cons x2 xs2 =>
      have h2 := ih (by simp)
      rw [List.cons_append] at h2
      rw [List.cons_append, List.cons_append, joinSlash_cons_cons, h2, joinSlash_cons_cons]
      simp

theorem joinSlash_ne_nil (comps : List Str) (hne : comps ≠ [])
    (hcomp : ∀ comp ∈ comps, comp ≠ []) : joinSlash comps ≠ [] := by
  cases comps with
  | nil => exact absurd rfl hne
  | cons x xs =>
    cases xs with
    | nil =>
      rw [joinSlash]
      exact hcomp x (by simp)
    | cons y ys =>
      rw [joinSlash_cons_cons]
      have := hcomp x (by simp)
      intro he
      rw [List.append_eq_nil] at he
      exact this he.1

theorem joinSlash_head (comps : List Str) (x : Str) (xs : List Str)
    (he : comps = x :: xs) (hx : x ≠ []) :
    (joinSlash comps).head? = x.head? := by
  subst he
  cases xs with
  | nil => rw [joinSlash]
  | cons y ys =>
    rw [joinSlash_cons_cons]
    cases x with
    | nil => exact absurd rfl hx
    | cons c r => simp

theorem joinSlash_getLast (comps : List Str) (hne : comps ≠ [])
    (hcomp : ∀ comp ∈ comps, comp ≠ []) :
    ∃ d, (joinSlash comps).getLast? = some d ∧ ∃ comp ∈ comps, d ∈ comp := by
  induction comps with
  | nil => exact absurd rfl hne
  | cons x xs ih =>
    cases xs with
    | nil =>
      rw [joinSlash]
      have hx := hcomp x (by simp)
      cases hg : x.getLast? with
      | none => rw [List.getLast?_eq_none_iff] at hg; exact absurd hg hx
      | some d =>
        refine ⟨d, rfl, x, by simp, ?_⟩
        have := List.getLast?_eq_some_iff.1 hg
        obtain ⟨ys, hys⟩ := this
        rw [hys]
        simp
    | cons y ys =>
      rw [joinSlash_cons_cons]
      obtain ⟨d, hd1, comp, hc1, hc2⟩ := ih (by simp)
        (fun c hc => hcomp c (by simp [hc]))
      refine ⟨d, ?_, comp, by simp [hc1], hc2⟩
      rw [List.getLast?_append]
      have hJne : joinSlash (y :: ys) ≠ [] :=
        joinSlash_ne_nil _ (by simp) (fun c hc => hcomp c (by simp [hc]))
      cases hJ : joinSlash (y :: ys) with
      | nil => exact absurd hJ hJne
      | cons j js =>
        rw [hJ] at hd1
        rw [List.getLast?_cons_cons, hd1]
        rfl

theorem splitSlash_slashfree :
    ∀ (x : Str), (∀ c ∈ x, ¬ c = '/') → splitSlash x = [x] := by
  intro x hx
  induction x with
  | nil => rfl
  | cons c r ih =>
    rw [splitSlash]
    rw [if_neg (hx c (by simp))]
    rw [ih (fun d hd => hx d (by simp [hd]))]
    rfl

theorem splitSlash_comp_slash :
    ∀ (x z : Str), (∀ c ∈ x, ¬ c = '/') →
      splitSlash (x ++ '/' :: z) = x :: splitSlash z := by
  intro x z hx
  induction x with
  | nil =>
    rw [List.nil_append, splitSlash, if_pos rfl]
  | cons c r ih =>
    rw [List.cons_append, splitSlash]
    rw [if_neg (hx c (by simp))]
    rw [ih (fun d hd => hx d (by simp [hd]))]
    rfl

theorem splitSlash_join_z (comps : List Str) (z : Str) (hne : comps ≠ [])
    (hcomp : ∀ comp ∈ comps, ∀ c ∈ comp, ¬ c = '/') :
    splitSlash (joinSlash comps ++ '/' :: z) = comps ++ splitSlash z := by
  induction comps with
  | nil => exact absurd rfl hne
  | cons x xs ih =>
    cases xs with
    | nil =>
      rw [joinSlash, splitSlash_comp_slash x z (hcomp x (by simp))]
      rfl
    | cons y ys =>
      rw [joinSlash_cons_cons, List.append_assoc, List.cons_append]
      rw [splitSlash_comp_slash x _ (hcomp x (by simp))]
      rw [ih (by simp) (fun c hc => hcomp c (by simp [hc]))]
      rfl

theorem splitSlash_join (comps : List Str) (hne : comps ≠ [])
    (hcomp : ∀ comp ∈ comps, ∀ c ∈ comp, ¬ c = '/') :
    splitSlash (joinSlash comps) = comps := by
  induction comps with
  | nil => exact absurd rfl hne
  | cons x xs ih =>
    cases xs with
    | nil =>
      rw [joinSlash, splitSlash_slashfree x (hcomp x (by simp))]
    | cons y ys =>
      rw [joinSlash_cons_cons]
      rw [splitSlash_comp_slash x _ (hcomp x (by simp))]
      rw [ih (by simp) (fun c hc => hcomp c (by simp [hc]))]

theorem normAux_good (flag : Bool) :
    ∀ (comps : List Str) (acc : List Str),
      (∀ comp ∈ comps, comp ≠ [] ∧ comp ≠ ['.'] ∧ comp ≠ ['.', '.']) →
      normAux flag acc comps = acc.reverse ++ comps := by
  intro comps
  induction comps with
  | nil => intro acc _; rw [normAux]; simp
  | cons comp rest ih =>
    intro acc hcomp
    have hc := hcomp comp (by simp)
    rw [normAux]
    rw [if_neg (by
      intro hx
      rcases hx with hx | hx
      · exact hc.1 hx
      · exact hc.2.1 hx)]
    rw [if_pos (Or.inl hc.2.2)]
    rw [ih (comp :: acc) (fun c hcm => hcomp c (by simp [hcm]))]
    simp

theorem normpath_abs (comps : List Str) (hne : comps ≠ [])
    (hcomp : ∀ comp ∈ comps, comp ≠ [] ∧ (∀ c ∈ comp, ¬ c = '/') ∧
      comp ≠ ['.'] ∧ comp ≠ ['.', '.']) :
    normpath ('/' :: joinSlash comps) = '/' :: joinSlash comps := by
  have hJne : joinSlash comps ≠ [] :=
    joinSlash_ne_nil comps hne (fun c hc => (hcomp c hc).1)
  have hhead : (joinSlash comps).head? ≠ some '/' := by
    cases comps with
    | nil => exact absurd rfl hne
    | cons x xs =>
      rw [joinSlash_head (x :: xs) x xs rfl (hcomp x (by simp)).1]
      cases hx : x with
      | nil => exact absurd hx (hcomp x (by simp)).1
      | cons c r =>
        intro he
        simp at he
        exact ((hcomp x (by simp)).2.1 c (by simp [hx])) he
  simp only [normpath]
  rw [if_neg (by simp)]
  have htake : ¬ (('/' :: joinSlash comps).take 2 = ['/', '/'] ∧
      ¬ ('/' :: joinSlash comps).take 3 = ['/', '/', '/']) := by
    intro hx
    obtain ⟨h1, _⟩ := hx
    cases hJ : joinSlash comps with
    | nil => exact absurd hJ hJne
    | cons c r =>
      rw [hJ] at h1
      simp at h1
      rw [hJ] at hhead
      simp at hhead
      exact hhead h1
  have hslash : (if ('/' :: joinSlash comps).head? = some '/' then
      (if ('/' :: joinSlash comps).take 2 = ['/', '/'] ∧
        ¬ ('/' :: joinSlash comps).take 3 = ['/', '/', '/'] then 2 else 1)
      else 0) = 1 := by
    rw [if_pos (by simp), if_neg htake]
  have hsplit : splitSlash ('/' :: joinSlash comps) = [] :: comps := by
    rw [splitSlash, if_pos rfl]
    rw [splitSlash_join comps hne (fun comp hc => (hcomp comp hc).2.1)]
  rw [hslash, hsplit]
  rw [normAux]
  rw [if_pos (Or.inl rfl)]
  rw [normAux_good _ comps [] (fun comp hc =>
    ⟨(hcomp comp hc).1, (hcomp comp hc).2.2.1, (hcomp comp hc).2.2.2⟩)]
  rw [List.reverse_nil, List.nil_append]
  have hrep : List.replicate 1 '/' ++ joinSlash comps = '/' :: joinSlash comps := by simp
  rw [hrep]
  rw [if_neg (by simp)]

theorem pathJoin_abs (comps : List Str) (b : Str) (hne : comps ≠ [])
    (hcomp : ∀ comp ∈ comps, comp ≠ [] ∧ (∀ c ∈ comp, ¬ c = '/'))
    (hb : ¬ b.head? = some '/') :
    pathJoin ('/' :: joinSlash comps) b = '/' :: joinSlash comps ++ '/' :: b := by
  rw [pathJoin]
  rw [if_neg hb]
  have hlast : ¬ ('/' :: joinSlash comps).getLast? = some '/' := by
    obtain ⟨d, hd1, comp, hc1, hc2⟩ :=
      joinSlash_getLast comps hne (fun c hc => (hcomp c hc).1)
    cases hJ : joinSlash comps with
    | nil =>
      rw [hJ] at hd1
      simp at hd1
    | cons j js =>
      rw [hJ] at hd1
      rw [List.getLast?_cons_cons, hd1]
      simp only [Option.some.injEq]
      intro he
      exact ((hcomp comp hc1).2 d hc2) (he ▸ rfl)
  rw [if_neg (by
    intro hx
    rcases hx with hx | hx
    · simp at hx
    · exact hlast hx)]

theorem splitSlash_filter (comps : List Str)
    (hcomp : ∀ comp ∈ comps, comp ≠ []) :
    ([] :: comps).filter (fun x => ¬ x = []) = comps := by
  rw [List.filter_cons, if_neg (by simp)]
  rw [List.filter_eq_self.2 (by intro a ha; simpa using hcomp a ha)]

theorem commonLen_append (xs ys : List Str) : commonLen xs (xs ++ ys) = xs.length := by
  induction xs with
  | nil => rfl
  | cons x r ih =>
    rw [List.cons_append]
    show (if x = x then commonLen r (r ++ ys) + 1 else 0) = (x :: r).length
    rw [if_pos rfl, ih]
    simp

theorem foldl_pathJoin (xs : List Str) :
    ∀ (x : Str), x ≠ [] → ¬ x.getLast? = some '/' →
      (∀ y ∈ xs, y ≠ [] ∧ ∀ c ∈ y, ¬ c = '/') →
      xs.foldl pathJoin x = joinSlash (x :: xs) := by
  induction xs with
  | nil => intro x _ _ _; rw [List.foldl_nil, joinSlash]
  | cons y ys ih =>
    intro x hxne hxl hys
    have hy := hys y (by simp)
    rw [List.foldl_cons]
    have hpj : pathJoin x y = x ++ '/' :: y := by
      rw [pathJoin]
      rw [if_neg (by
        cases hyy : y with
        | nil => exact absurd hyy hy.1
        | cons c r =>
          simp only [List.head?_cons, Option.some.injEq]
          intro he
          exact (hy.2 c (by simp [hyy])) he)]
      rw [if_neg (by
        intro hx
        rcases hx with hx | hx
        · exact hxne hx
        · exact hxl hx)]
    rw [hpj]
    rw [ih (x ++ '/' :: y) (by simp) (by
      rw [List.getLast?_append]
      cases hyy : y with
      | nil => exact absurd hyy hy.1
      | cons c r =>
        rw [List.getLast?_cons_cons]
        cases hg : (c :: r).getLast? with
        | none => rw [List.getLast?_eq_none_iff] at hg; simp at hg
        | some d =>
          simp only [Option.or_some, Option.some.injEq]
          intro he
          obtain ⟨zs, hzs⟩ := List.getLast?_eq_some_iff.1 hg
          have hdm : d ∈ (c :: r) := by rw [hzs]; simp
          exact (hy.2 d (by rw [hyy]; exact hdm)) he)
      (fun z hz => hys z (by simp [hz]))]
    cases ys with
    | nil => rw [joinSlash, joinSlash_cons_cons, joinSlash]
    | cons z zs =>
      rw [joinSlash_cons_cons, joinSlash_cons_cons x y (z :: zs)]
      rw [joinSlash_cons_cons y z zs]
      simp

theorem relpath_structured (cwd : Str) (cwdcomps q : List Str) (hcwdne : cwdcomps ≠ [])
    (hq : q ≠ [])
    (hcwd : ∀ comp ∈ cwdcomps, comp ≠ [] ∧ (∀ c ∈ comp, ¬ c = '/') ∧
      comp ≠ ['.'] ∧ comp ≠ ['.', '.'])
    (hqc : ∀ comp ∈ q, comp ≠ [] ∧ (∀ c ∈ comp, ¬ c = '/') ∧
      comp ≠ ['.'] ∧ comp ≠ ['.', '.']) :
    relpath cwd ('/' :: joinSlash (cwdcomps ++ q)) ('/' :: joinSlash cwdcomps)
      = joinSlash q := by
  have hboth : ∀ comp ∈ cwdcomps ++ q, comp ≠ [] ∧ (∀ c ∈ comp, ¬ c = '/') ∧
      comp ≠ ['.'] ∧ comp ≠ ['.', '.'] := by
    intro comp hc
    rcases List.mem_append.1 hc with hc2 | hc2
    · exact hcwd comp hc2
    · exact hqc comp hc2
  have habs1 : abspath cwd ('/' :: joinSlash (cwdcomps ++ q))
      = '/' :: joinSlash (cwdcomps ++ q) := by
    rw [abspath, if_pos (by simp)]
    exact normpath_abs _ (by simp [hcwdne]) hboth
  have habs2 : abspath cwd ('/' :: joinSlash cwdcomps) = '/' :: joinSlash cwdcomps := by
    rw [abspath, if_pos (by simp)]
    exact normpath_abs _ hcwdne hcwd
  have hsplit1 : splitSlash ('/' :: joinSlash (cwdcomps ++ q)) = [] :: (cwdcomps ++ q) := by
    rw [splitSlash, if_pos rfl]
    rw [splitSlash_join _ (by simp [hcwdne]) (fun comp hc => (hboth comp hc).2.1)]
  have hsplit2 : splitSlash ('/' :: joinSlash cwdcomps) = [] :: cwdcomps := by
    rw [splitSlash, if_pos rfl]
    rw [splitSlash_join _ hcwdne (fun comp hc => (hcwd comp hc).2.1)]
  simp only [relpath]
  rw [habs1, habs2, hsplit1, hsplit2]
  rw [splitSlash_filter cwdcomps (fun c hc => (hcwd c hc).1)]
  rw [splitSlash_filter (cwdcomps ++ q) (fun c hc => (hboth c hc).1)]
  rw [commonLen_append]
  rw [Nat.sub_self, List.replicate_zero, List.nil_append]
  rw [List.drop_left]
  cases q with
  | nil => exact absurd rfl hq
  | cons x xs =>
    show xs.foldl pathJoin x = joinSlash (x :: xs)
    refine foldl_pathJoin xs x (hqc x (by simp)).1 ?_
      (fun y hy => ⟨(hqc y (by simp [hy])).1, (hqc y (by simp [hy])).2.1⟩)
    cases hg : x.getLast? with
    | none => simp
    | some d =>
      simp only [Option.some.injEq]
      intro he
      obtain ⟨zs, hzs⟩ := List.getLast?_eq_some_iff.1 hg
      exact ((hqc x (by simp)).2.1 d (by rw [hzs]; simp)) (he ▸ rfl)

theorem dirname_join (dcomps : List Str) (fname : Str)
    (hd : ∀ comp ∈ dcomps, comp ≠ [] ∧ ∀ c ∈ comp, ¬ c = '/')
    (hfn : ∀ c ∈ fname, ¬ c = '/') :
    dirname (joinSlash (dcomps ++ [fname])) = joinSlash dcomps := by
  cases dcomps with
  | nil =>
    rw [List.nil_append]
    rw [dirname]
    have hhead : takeToLastSlash (joinSlash [fname]) = [] := by
      rw [joinSlash, takeToLastSlash]
      have h1 : fname.reverse.dropWhile (fun c => ¬ c = '/') = [] := by
        rw [List.dropWhile_eq_nil_iff]
        intro x hx
        simpa using hfn x (by simpa using hx)
      rw [h1]
      rfl
    rw [hhead]
    rw [if_neg (by simp)]
    rfl
  | cons d ds =>
    have hJ := joinSlash_append (d :: ds) [fname] (by simp) (by simp)
    rw [hJ]
    have hfne : joinSlash [fname] = fname := by rw [joinSlash]
    rw [hfne]
    obtain ⟨e, he1, comp, hc1, hc2⟩ :=
      joinSlash_getLast (d :: ds) (by simp) (fun c hc => (hd c hc).1)
    have hene : ¬ e = '/' := (hd comp hc1).2 e hc2
    have heJ : e ∈ joinSlash (d :: ds) := by
      obtain ⟨ys, hys⟩ := List.getLast?_eq_some_iff.1 he1
      rw [hys]
      simp
    have hhead : takeToLastSlash (joinSlash (d :: ds) ++ '/' :: fname)
        = joinSlash (d :: ds) ++ ['/'] := by
      rw [takeToLastSlash]
      rw [List.reverse_append]
      have hrev : ('/' :: fname).reverse = fname.reverse ++ ['/'] := by simp
      rw [hrev]
      rw [List.append_assoc]
      rw [dropWhile_append_of_all fname.reverse _
        (by intro c hc; simpa using hfn c (by simpa using hc))]
      rw [List.cons_append, List.dropWhile_cons]
      rw [if_neg (by simp)]
      simp
    rw [dirname, hhead]
    rw [if_pos ⟨by simp, by
      simp only [List.all_eq_true]
      push_neg
      refine ⟨e, by simp [heJ], by simpa using hene⟩⟩]
    rw [List.reverse_append]
    have h2 : (['/'] : Str).reverse = ['/'] := rfl
    rw [h2, List.cons_append, List.nil_append, List.dropWhile_cons]
    rw [if_pos (by simp)]
    have h3 : (joinSlash (d :: ds)).reverse.dropWhile (fun c => c = '/')
        = (joinSlash (d :: ds)).reverse := by
      apply dropWhile_eq_self_of_head
      intro hne
      have h4 : (joinSlash (d :: ds)).reverse.head? = some e := by
        rw [List.head?_reverse]; exact he1
      rw [List.head?_eq_head hne] at h4
      simp only [Option.some.injEq] at h4
      simp [h4, hene]
    rw [h3]
    simp

theorem pathJoin_rel (dcomps pcomps : List Str) (hp : pcomps ≠ [])
    (hd : ∀ comp ∈ dcomps, comp ≠ [] ∧ ∀ c ∈ comp, ¬ c = '/')
    (hpc : ∀ comp ∈ pcomps, comp ≠ [] ∧ ∀ c ∈ comp, ¬ c = '/') :
    pathJoin (joinSlash dcomps) (joinSlash pcomps) = joinSlash (dcomps ++ pcomps) := by
  have hphead : ¬ (joinSlash pcomps).head? = some '/' := by
    cases pcomps with
    | nil => exact absurd rfl hp
    | cons x xs =>
      rw [joinSlash_head (x :: xs) x xs rfl (hpc x (by simp)).1]
      cases hx : x with
      | nil => exact absurd hx (hpc x (by simp)).1
      | cons c r =>
        intro he
        simp at he
        exact ((hpc x (by simp)).2 c (by simp [hx])) he
  rw [pathJoin, if_neg hphead]
  cases dcomps with
  | nil =>
    rw [if_pos (Or.inl (by rw [joinSlash]))]
    simp [joinSlash]
  | cons d ds =>
    have hlast : ¬ (joinSlash (d :: ds)).getLast? = some '/' := by
      obtain ⟨e, he1, comp, hc1, hc2⟩ :=
        joinSlash_getLast (d :: ds) (by simp) (fun c hc => (hd c hc).1)
      rw [he1]
      simp only [Option.some.injEq]
      intro he
      exact ((hd comp hc1).2 e hc2) he
    rw [if_neg (by
      intro hx
      rcases hx with hx | hx
      · exact joinSlash_ne_nil (d :: ds) (by simp) (fun c hc => (hd c hc).1) hx
      · exact hlast hx)]
    rw [joinSlash_append (d :: ds) pcomps hp (by simp)]

theorem abspath_rel (cwdcomps X : List Str) (hcne : cwdcomps ≠ []) (hXne : X ≠ [])
    (hcwd : ∀ comp ∈ cwdcomps, comp ≠ [] ∧ (∀ c ∈ comp, ¬ c = '/') ∧
      comp ≠ ['.'] ∧ comp ≠ ['.', '.'])
    (hX : ∀ comp ∈ X, comp ≠ [] ∧ (∀ c ∈ comp, ¬ c = '/') ∧
      comp ≠ ['.'] ∧ comp ≠ ['.', '.']) :
    abspath ('/' :: joinSlash cwdcomps) (joinSlash X)
      = '/' :: joinSlash (cwdcomps ++ X) := by
  have hXhead : ¬ (joinSlash X).head? = some '/' := by
    cases X with
    | nil => exact absurd rfl hXne
    | cons x xs =>
      rw [joinSlash_head (x :: xs) x xs rfl (hX x (by simp)).1]
      cases hx : x with
      | nil => exact absurd hx (hX x (by simp)).1
      | cons c r =>
        intro he
        simp at he
        exact ((hX x (by simp)).2.1 c (by simp [hx])) he
  rw [abspath, if_neg hXhead]
  rw [pathJoin_abs cwdcomps (joinSlash X) hcne
    (fun c hc => ⟨(hcwd c hc).1, (hcwd c hc).2.1⟩) hXhead]
  have hJ : ('/' :: joinSlash cwdcomps) ++ '/' :: joinSlash X
      = '/' :: joinSlash (cwdcomps ++ X) := by
    rw [joinSlash_append cwdcomps X hXne hcne]
    simp
  rw [hJ]
  exact normpath_abs (cwdcomps ++ X)
    (by intro h; exact hcne (List.append_eq_nil.1 h).1)
    (by
      intro comp hc
      rcases List.mem_append.1 hc with h | h
      · exact hcwd comp h
      · exact hX comp h)

theorem normAux_pre (flag : Bool) :
    ∀ (comps : List Str),
      (∀ comp ∈ comps, comp ≠ [] ∧ comp ≠ ['.'] ∧ comp ≠ ['.', '.']) →
      ∀ (acc rest : List Str),
      normAux flag acc (comps ++ rest) = normAux flag (comps.reverse ++ acc) rest := by
  intro comps
  induction comps with
  | nil => intro _ acc rest; simp
  | cons comp cs ih =>
    intro h acc rest
    have hc := h comp (by simp)
    rw [List.cons_append, normAux]
    rw [if_neg (by
      intro hx
      rcases hx with hx | hx
      · exact hc.1 hx
      · exact hc.2.1 hx)]
    rw [if_pos (Or.inl hc.2.2)]
    rw [ih (fun c hcm => h c (by simp [hcm])) (comp :: acc) rest]
    simp

theorem abspath_dotslash (cwdcomps : List Str) (hne : cwdcomps ≠ [])
    (hcwd : ∀ comp ∈ cwdcomps, comp ≠ [] ∧ (∀ c ∈ comp, ¬ c = '/') ∧
      comp ≠ ['.'] ∧ comp ≠ ['.', '.']) :
    abspath ('/' :: joinSlash cwdcomps) ['.', '/'] = '/' :: joinSlash cwdcomps := by
  rw [abspath]
  rw [if_neg (by decide)]
  rw [pathJoin_abs cwdcomps ['.', '/'] hne
    (fun c hc => ⟨(hcwd c hc).1, (hcwd c hc).2.1⟩) (by decide)]
  have hp : ('/' :: joinSlash cwdcomps) ++ '/' :: ['.', '/']
      = '/' :: (joinSlash cwdcomps ++ '/' :: ['.', '/']) := by simp
  rw [hp]
  have hJne : joinSlash cwdcomps ≠ [] :=
    joinSlash_ne_nil cwdcomps hne (fun c hc => (hcwd c hc).1)
  have hhead : (joinSlash cwdcomps).head? ≠ some '/' := by
    cases cwdcomps with
    | nil => exact absurd rfl hne
    | cons x xs =>
      rw [joinSlash_head (x :: xs) x xs rfl (hcwd x (by simp)).1]
      cases hx : x with
      | nil => exact absurd hx (hcwd x (by simp)).1
      | cons c r =>
        intro he
        simp at he
        exact ((hcwd x (by simp)).2.1 c (by simp [hx])) he
  simp only [normpath]
  rw [if_neg (by simp)]
  have htake : ¬ (('/' :: (joinSlash cwdcomps ++ '/' :: ['.', '/'])).take 2 = ['/', '/'] ∧
      ¬ ('/' :: (joinSlash cwdcomps ++ '/' :: ['.', '/'])).take 3 = ['/', '/', '/']) := by
    intro hx
    obtain ⟨h1, _⟩ := hx
    cases hJ : joinSlash cwdcomps with
    | nil => exact absurd hJ hJne
    | cons c r =>
      rw [hJ] at h1
      simp at h1
      rw [hJ] at hhead
      simp at hhead
      exact hhead h1
  have hslash : (if ('/' :: (joinSlash cwdcomps ++ '/' :: ['.', '/'])).head? = some '/' then
      (if ('/' :: (joinSlash cwdcomps ++ '/' :: ['.', '/'])).take 2 = ['/', '/'] ∧
        ¬ ('/' :: (joinSlash cwdcomps ++ '/' :: ['.', '/'])).take 3 = ['/', '/', '/'] then 2 else 1)
      else 0) = 1 := by
    rw [if_pos (by simp), if_neg htake]
  have hsplit : splitSlash ('/' :: (joinSlash cwdcomps ++ '/' :: ['.', '/']))
      = [] :: (cwdcomps ++ [['.'], []]) := by
    rw [splitSlash, if_pos rfl]
    rw [splitSlash_join_z cwdcomps ['.', '/'] hne (fun comp hc => (hcwd comp hc).2.1)]
    have h2 : splitSlash ['.', '/'] = [['.'], []] := by decide
    rw [h2]
  rw [hslash, hsplit]
  rw [normAux]
  rw [if_pos (Or.inl rfl)]
  rw [normAux_pre _ cwdcomps (fun comp hc =>
    ⟨(hcwd comp hc).1, (hcwd comp hc).2.2.1, (hcwd comp hc).2.2.2⟩) [] [['.'], []]]
  rw [normAux]
  rw [if_pos (Or.inr rfl)]
  rw [normAux]
  rw [if_pos (Or.inl rfl)]
  rw [normAux]
  have hrep : List.replicate 1 '/' ++ joinSlash (cwdcomps.reverse ++ ([] : List Str)).reverse
      = '/' :: joinSlash cwdcomps := by
    simp
  rw [hrep]
  rw [if_neg (by simp)]

theorem joinSlash_mem (comps : List Str) (c : Char) (hc : c ∈ joinSlash comps) :
    c = '/' ∨ ∃ comp ∈ comps, c ∈ comp := by
  induction comps with
  | nil => rw [joinSlash] at hc; simp at hc
  | cons x xs ih =>
    cases xs with
    | nil =>
      right
      exact ⟨x, by simp, by rw [joinSlash] at hc; exact hc⟩
    | cons y ys =>
      rw [joinSlash_cons_cons] at hc
      rcases List.mem_append.1 hc with h | h
      · right; exact ⟨x, by simp, h⟩
      · rcases List.mem_cons.1 h with h | h
        · left; exact h
        · rcases ih h with h1 | ⟨comp, hm, hcm⟩
          · left; exact h1
          · right; exact ⟨comp, by simp [List.mem_cons.1 hm], hcm⟩

/-- Shared single-reference lemma: a lone image reference with a structured
relative path (components free of slash, quote, paren and newline) in a file
at `dcomps/fname` under the repository root is rewritten to
`RSS_LINK ++ "/raw/main/" ++ encodeSpaces (dcomps/pcomps)`. -/
theorem single_ref_rel (cwdcomps dcomps pcomps : List Str)
    (alt fname : Str)
    (hcwdne : cwdcomps ≠ [])
    (hcwd : ∀ comp ∈ cwdcomps, comp ≠ [] ∧ (∀ c ∈ comp, ¬ c = '/') ∧
      comp ≠ ['.'] ∧ comp ≠ ['.', '.'])
    (hd : ∀ comp ∈ dcomps, comp ≠ [] ∧ (∀ c ∈ comp, ¬ c = '/') ∧
      comp ≠ ['.'] ∧ comp ≠ ['.', '.'])
    (hfn : ∀ c ∈ fname, ¬ c = '/')
    (hpne : pcomps ≠ [])
    (hp : ∀ comp ∈ pcomps, comp ≠ [] ∧
      (∀ c ∈ comp, ¬ c = '/' ∧ ¬ c = ')' ∧ ¬ c = '"' ∧ ¬ c = '\n') ∧
      comp ≠ ['.'] ∧ comp ≠ ['.', '.'])
    (halt : ∀ c ∈ alt, ¬ c = ']' ∧ ¬ c = '\n')
    (hst : pyStrip (joinSlash pcomps) = joinSlash pcomps)
    (hnn : ¬ ("http://".toList.isPrefixOf (joinSlash pcomps)
      ∨ "https://".toList.isPrefixOf (joinSlash pcomps))) :
    replace_md_image_paths ('/' :: joinSlash cwdcomps) (joinSlash (dcomps ++ [fname]))
        ('!' :: '[' :: (alt ++ ']' :: '(' :: (joinSlash pcomps ++ [')'])))
      = '!' :: '[' :: (alt ++ ']' :: '(' ::
          (RSS_LINK ++ "/raw/main/".toList ++
            encodeSpaces (joinSlash (dcomps ++ pcomps)) ++ [')'])) := by
  have hg2 : matchG2 (joinSlash pcomps ++ ')' :: []) = some (joinSlash pcomps, []) := by
    apply matchG2_plain
    intro c hc
    rcases joinSlash_mem pcomps c hc with h | ⟨comp, hm, hcm⟩
    · subst h; exact ⟨by decide, by decide, by decide⟩
    · exact ⟨((hp comp hm).2.1 c hcm).2.1, ((hp comp hm).2.1 c hcm).2.2.1,
        ((hp comp hm).2.1 c hcm).2.2.2⟩
  have halt2 := matchAlt_structured alt (joinSlash pcomps ++ ')' :: [])
    (joinSlash pcomps) [] halt hg2
  rw [replace_md_image_paths]
  rw [subImages_single _ _ _ _ halt2]
  have hnn2 : ¬ ("http://".toList.isPrefixOf (pyStrip (joinSlash pcomps))
      ∨ "https://".toList.isPrefixOf (pyStrip (joinSlash pcomps))) := by
    rw [hst]; exact hnn
  rw [replace_image_match_rel _ _ _ _ hnn2]
  rw [hst]
  rw [dirname_join dcomps fname (fun c hc => ⟨(hd c hc).1, (hd c hc).2.1⟩) hfn]
  rw [pathJoin_rel dcomps pcomps hpne (fun c hc => ⟨(hd c hc).1, (hd c hc).2.1⟩)
    (fun comp hm => ⟨(hp comp hm).1, fun c hc => ((hp comp hm).2.1 c hc).1⟩)]
  rw [abspath_rel cwdcomps (dcomps ++ pcomps) hcwdne
    (by intro h; exact hpne (List.append_eq_nil.1 h).2) hcwd
    (by
      intro comp hm
      rcases List.mem_append.1 hm with h | h
      · exact hd comp h
      · exact ⟨(hp comp h).1, fun c hc => ((hp comp h).2.1 c hc).1,
          (hp comp h).2.2.1, (hp comp h).2.2.2⟩)]
  rw [abspath_dotslash cwdcomps hcwdne hcwd]
  rw [relpath_structured ('/' :: joinSlash cwdcomps) cwdcomps (dcomps ++ pcomps) hcwdne
    (by intro h; exact hpne (List.append_eq_nil.1 h).2) hcwd
    (by
      intro comp hm
      rcases List.mem_append.1 hm with h | h
      · exact hd comp h
      · exact ⟨(hp comp h).1, fun c hc => ((hp comp h).2.1 c hc).1,
          (hp comp h).2.2.1, (hp comp h).2.2.2⟩)]

/-- Claim C4: a single image reference whose path is a plain relative path
(components free of slash, quote, paren and newline) in a file at
`dcomps/fname` under the repository root is rewritten to
`RSS_LINK ++ "/raw/main/" ++ encodeSpaces (dcomps/pcomps)`: the path is
resolved against the source directory, made relative to the project root
(the working directory), and spaces become `%20`. -/
theorem claim_c4_relative_rewrite (cwdcomps dcomps pcomps : List Str)
    (alt fname : Str)
    (hcwdne : cwdcomps ≠ [])
    (hcwd : ∀ comp ∈ cwdcomps, comp ≠ [] ∧ (∀ c ∈ comp, ¬ c = '/') ∧
      comp ≠ ['.'] ∧ comp ≠ ['.', '.'])
    (hd : ∀ comp ∈ dcomps, comp ≠ [] ∧ (∀ c ∈ comp, ¬ c = '/') ∧
      comp ≠ ['.'] ∧ comp ≠ ['.', '.'])
    (hfn : ∀ c ∈ fname, ¬ c = '/')
    (hpne : pcomps ≠ [])
    (hp : ∀ comp ∈ pcomps, comp ≠ [] ∧
      (∀ c ∈ comp, ¬ c = '/' ∧ ¬ c = ')' ∧ ¬ c = '"' ∧ ¬ c = '\n') ∧
      comp ≠ ['.'] ∧ comp ≠ ['.', '.'])
    (halt : ∀ c ∈ alt, ¬ c = ']' ∧ ¬ c = '\n')
    (hst : pyStrip (joinSlash pcomps) = joinSlash pcomps)
    (hnn : ¬ ("http://".toList.isPrefixOf (joinSlash pcomps)
      ∨ "https://".toList.isPrefixOf (joinSlash pcomps))) :
    replace_md_image_paths ('/' :: joinSlash cwdcomps) (joinSlash (dcomps ++ [fname]))
        ('!' :: '[' :: (alt ++ ']' :: '(' :: (joinSlash pcomps ++ [')'])))
      = '!' :: '[' :: (alt ++ ']' :: '(' ::
          (RSS_LINK ++ "/raw/main/".toList ++
            encodeSpaces (joinSlash (dcomps ++ pcomps)) ++ [')'])) :=
  single_ref_rel cwdcomps dcomps pcomps alt fname hcwdne hcwd hd hfn hpne hp halt hst hnn

theorem claim_c4_witness :
    replace_md_image_paths ('/' :: joinSlash ["repo".toList])
        (joinSlash (["post".toList] ++ ["a.md".toList]))
        ('!' :: '[' :: (['x'] ++ ']' :: '(' ::
          (joinSlash ["img".toList, "a.png".toList] ++ [')'])))
      = '!' :: '[' :: (['x'] ++ ']' :: '(' ::
          (RSS_LINK ++ "/raw/main/".toList ++
            encodeSpaces (joinSlash (["post".toList] ++ ["img".toList, "a.png".toList])) ++
            [')'])) :=
  claim_c4_relative_rewrite ["repo".toList] ["post".toList] ["img".toList, "a.png".toList]
    ['x'] "a.md".toList (by decide) (by decide) (by decide) (by decide) (by decide)
    (by decide) (by decide) (by decide) (by decide)

theorem encodeSpaces_mem (s : Str) (c : Char) (hc : c ∈ encodeSpaces s) :
    (c ∈ s ∧ ¬ c = ' ') ∨ c = '%' ∨ c = '2' ∨ c = '0' := by
  rw [encodeSpaces] at hc
  rcases List.mem_flatMap.1 hc with ⟨a, ha, hca⟩
  by_cases h : a = ' '
  · rw [if_pos h] at hca
    right
    simpa using hca
  · rw [if_neg h] at hca
    left
    simp at hca
    subst hca
    exact ⟨ha, h⟩

theorem pyStrip_of_no_ws (s : Str) (h : ∀ c ∈ s, ¬ isSpace c) : pyStrip s = s := by
  have h1 : s.dropWhile isSpace = s :=
    dropWhile_eq_self_of_head s (fun hne => h _ (List.head_mem hne))
  have h2 : s.reverse.dropWhile isSpace = s.reverse :=
    dropWhile_eq_self_of_head s.reverse (fun hne =>
      h _ (List.mem_reverse.1 (List.head_mem hne)))
  rw [pyStrip, h1, h2, List.reverse_reverse]

/-- A lone image reference whose path is already a fixed absolute link with
no whitespace and no `)`, `"`, newline characters is left exactly unchanged. -/
theorem single_ref_net_fixed (cwd mdp alt L : Str)
    (halt : ∀ c ∈ alt, ¬ c = ']' ∧ ¬ c = '\n')
    (hL : ∀ c ∈ L, ¬ c = ')' ∧ ¬ c = '"' ∧ ¬ c = '\n' ∧ ¬ isSpace c)
    (hnet : "http://".toList.isPrefixOf L ∨ "https://".toList.isPrefixOf L) :
    replace_md_image_paths cwd mdp ('!' :: '[' :: (alt ++ ']' :: '(' :: (L ++ [')'])))
      = '!' :: '[' :: (alt ++ ']' :: '(' :: (L ++ [')'])) := by
  have hstL : pyStrip L = L := pyStrip_of_no_ws L (fun c hc => (hL c hc).2.2.2)
  have hg2 : matchG2 (L ++ ')' :: []) = some (L, []) :=
    matchG2_plain L [] (fun c hc => ⟨(hL c hc).1, (hL c hc).2.1, (hL c hc).2.2.1⟩)
  have halt2 := matchAlt_structured alt (L ++ ')' :: []) L [] halt hg2
  rw [replace_md_image_paths, subImages_single _ _ _ _ halt2]
  rw [replace_image_match_net _ _ _ _ (by rw [hstL]; exact hnet)]
  rw [hstL]

/-- Claim C9, amended: on a lone structured relative image reference (path and
directory components free of slash, paren, quote, with space as the only
whitespace), `replace_md_image_paths` is idempotent: the first pass yields a
fixed `https` link that the second pass leaves unchanged. -/
theorem claim_c9_amended (cwdcomps dcomps pcomps : List Str) (alt fname : Str)
    (hcwdne : cwdcomps ≠ [])
    (hcwd : ∀ comp ∈ cwdcomps, comp ≠ [] ∧ (∀ c ∈ comp, ¬ c = '/') ∧
      comp ≠ ['.'] ∧ comp ≠ ['.', '.'])
    (hd : ∀ comp ∈ dcomps, comp ≠ [] ∧
      (∀ c ∈ comp, ¬ c = '/' ∧ ¬ c = ')' ∧ ¬ c = '"' ∧ (isSpace c → c = ' ')) ∧
      comp ≠ ['.'] ∧ comp ≠ ['.', '.'])
    (hfn : ∀ c ∈ fname, ¬ c = '/')
    (hpne : pcomps ≠ [])
    (hp : ∀ comp ∈ pcomps, comp ≠ [] ∧
      (∀ c ∈ comp, ¬ c = '/' ∧ ¬ c = ')' ∧ ¬ c = '"' ∧ (isSpace c → c = ' ')) ∧
      comp ≠ ['.'] ∧ comp ≠ ['.', '.'])
    (halt : ∀ c ∈ alt, ¬ c = ']' ∧ ¬ c = '\n')
    (hst : pyStrip (joinSlash pcomps) = joinSlash pcomps)
    (hnn : ¬ ("http://".toList.isPrefixOf (joinSlash pcomps)
      ∨ "https://".toList.isPrefixOf (joinSlash pcomps))) :
    replace_md_image_paths ('/' :: joinSlash cwdcomps) (joinSlash (dcomps ++ [fname]))
        (replace_md_image_paths ('/' :: joinSlash cwdcomps) (joinSlash (dcomps ++ [fname]))
          ('!' :: '[' :: (alt ++ ']' :: '(' :: (joinSlash pcomps ++ [')']))))
      = replace_md_image_paths ('/' :: joinSlash cwdcomps) (joinSlash (dcomps ++ [fname]))
          ('!' :: '[' :: (alt ++ ']' :: '(' :: (joinSlash pcomps ++ [')']))) := by
  have hp4 : ∀ comp ∈ pcomps, comp ≠ [] ∧
      (∀ c ∈ comp, ¬ c = '/' ∧ ¬ c = ')' ∧ ¬ c = '"' ∧ ¬ c = '\n') ∧
      comp ≠ ['.'] ∧ comp ≠ ['.', '.'] := by
    intro comp hm
    refine ⟨(hp comp hm).1, ?_, (hp comp hm).2.2.1, (hp comp hm).2.2.2⟩
    intro c hc
    have h1 := (hp comp hm).2.1 c hc
    refine ⟨h1.1, h1.2.1, h1.2.2.1, ?_⟩
    intro he
    subst he
    exact absurd (h1.2.2.2 (by decide)) (by decide)
  have hd4 : ∀ comp ∈ dcomps, comp ≠ [] ∧ (∀ c ∈ comp, ¬ c = '/') ∧
      comp ≠ ['.'] ∧ comp ≠ ['.', '.'] :=
    fun comp hm => ⟨(hd comp hm).1, fun c hc => ((hd comp hm).2.1 c hc).1,
      (hd comp hm).2.2.1, (hd comp hm).2.2.2⟩
  have h1 := single_ref_rel cwdcomps dcomps pcomps alt fname hcwdne hcwd hd4 hfn
    hpne hp4 halt hst hnn
  rw [h1]
  apply single_ref_net_fixed
  · exact halt
  · intro c hc
    rcases List.mem_append.1 hc with h | h
    · rcases List.mem_append.1 h with h | h
      · exact (by decide : ∀ c ∈ RSS_LINK,
          ¬ c = ')' ∧ ¬ c = '"' ∧ ¬ c = '\n' ∧ ¬ isSpace c) c h
      · exact (by decide : ∀ c ∈ "/raw/main/".toList,
          ¬ c = ')' ∧ ¬ c = '"' ∧ ¬ c = '\n' ∧ ¬ isSpace c) c h
    · rcases encodeSpaces_mem _ c h with ⟨hmem, hcsp⟩ | h2 | h2 | h2
      · rcases joinSlash_mem _ c hmem with h3 | ⟨comp, hm, hcm⟩
        · subst h3; exact ⟨by decide, by decide, by decide, by decide⟩
        · have h4 : ¬ c = '/' ∧ ¬ c = ')' ∧ ¬ c = '"' ∧ (isSpace c → c = ' ') := by
            rcases List.mem_append.1 hm with hm2 | hm2
            · exact (hd comp hm2).2.1 c hcm
            · exact (hp comp hm2).2.1 c hcm
          refine ⟨h4.2.1, h4.2.2.1, ?_, ?_⟩
          · intro he; subst he; exact absurd (h4.2.2.2 (by decide)) (by decide)
          · intro hsp; exact hcsp (h4.2.2.2 hsp)
      · subst h2; exact ⟨by decide, by decide, by decide, by decide⟩
      · subst h2; exact ⟨by decide, by decide, by decide, by decide⟩
      · subst h2; exact ⟨by decide, by decide, by decide, by decide⟩
  · right
    rw [List.isPrefixOf_iff_prefix]
    have h8 : RSS_LINK = "https://".toList ++ "github.com/itcoffee66/githubweekly".toList := by
      decide
    rw [h8, List.append_assoc, List.append_assoc]
    exact List.prefix_append _ _

theorem claim_c9_witness :
    replace_md_image_paths ('/' :: joinSlash ["repo".toList])
        (joinSlash (["post".toList] ++ ["a.md".toList]))
        (replace_md_image_paths ('/' :: joinSlash ["repo".toList])
          (joinSlash (["post".toList] ++ ["a.md".toList]))
          ('!' :: '[' :: (['x'] ++ ']' :: '(' ::
            (joinSlash ["img".toList, "my pic.png".toList] ++ [')']))))
      = replace_md_image_paths ('/' :: joinSlash ["repo".toList])
          (joinSlash (["post".toList] ++ ["a.md".toList]))
          ('!' :: '[' :: (['x'] ++ ']' :: '(' ::
            (joinSlash ["img".toList, "my pic.png".toList] ++ [')']))) :=
  claim_c9_amended ["repo".toList] ["post".toList] ["img".toList, "my pic.png".toList]
    ['x'] "a.md".toList (by decide) (by decide) (by decide) (by decide) (by decide)
    (by decide) (by decide) (by decide) (by decide)

theorem claim_c2_witness :
    replace_md_image_paths ('/' :: "repo".toList) "a.md".toList
        ('!' :: '[' :: (['x'] ++ ']' :: '(' ::
          ([' '] ++ "http://a.png".toList ++ ([' '] ++ '"' :: ['t'] ++ ['"']) ++ [')'])))
      = '!' :: '[' :: (['x'] ++ ']' :: '(' :: ("http://a.png".toList ++ [')'])) :=
  claim_c2_amended ('/' :: "repo".toList) "a.md".toList ['x'] "http://a.png".toList [' ']
    ([' '] ++ '"' :: ['t'] ++ ['"'])
    (by decide) (Or.inl (by decide)) (by decide) (by decide)
    (Or.inr ⟨[' '], ['t'], by decide, by decide, by decide, by decide⟩)

theorem rfindIdx_absent (c : Char) (p : Str) (h : ∀ x ∈ p, ¬ x = c) :
    rfindIdx c p = -1 := by
  rw [rfindIdx]
  have hf : p.reverse.findIdx? (fun x => x = c) = none := by
    rw [List.findIdx?_eq_none_iff]
    intro x hx
    simpa using h x (List.mem_reverse.1 hx)
  rw [hf]

theorem rfindIdx_dot (s : Str) (h : ∀ x ∈ s, ¬ x = '.') :
    rfindIdx '.' (s ++ ".md".toList) = (s.length : Int) := by
  rw [rfindIdx]
  have hrev : (s ++ ".md".toList).reverse = 'd' :: 'm' :: '.' :: s.reverse := by simp
  rw [hrev]
  have hfind : List.findIdx? (fun x => x = '.') ('d' :: 'm' :: '.' :: s.reverse)
      = some 2 := by
    simp [List.findIdx?_cons]
  rw [hfind]
  show ((s ++ ".md".toList).length : Int) - 1 - 2 = (s.length : Int)
  simp
  omega

theorem splitext_md (s : Str) (hne : s ≠ []) (h : ∀ c ∈ s, ¬ c = '.' ∧ ¬ c = '/') :
    splitext (s ++ ".md".toList) = (s, ".md".toList) := by
  have hsep : rfindIdx '/' (s ++ ".md".toList) = -1 := by
    apply rfindIdx_absent
    intro x hx
    rcases List.mem_append.1 hx with h1 | h1
    · exact (h x h1).2
    · exact (by decide : ∀ x ∈ ".md".toList, ¬ x = '/') x h1
  have hdot : rfindIdx '.' (s ++ ".md".toList) = (s.length : Int) :=
    rfindIdx_dot s (fun c hc => (h c hc).1)
  simp only [splitext]
  rw [hsep, hdot]
  rw [if_pos (by omega)]
  have h0 : ((-1 : Int) + 1).toNat = 0 := by decide
  have h1 : ((s.length : Int)).toNat = s.length := by omega
  rw [h0, h1]
  have htake : (s ++ ".md".toList).take s.length = s := by
    rw [List.take_append_of_le_length (by omega)]
    simp
  have hdrop : (s ++ ".md".toList).drop s.length = ".md".toList := by
    rw [List.drop_append_of_le_length (by omega)]
    simp
  rw [List.drop_zero, Nat.sub_zero, htake]
  rw [if_neg (by
    simp only [List.all_eq_true]
    push_neg
    cases s with
    | nil => exact absurd rfl hne
    | cons c r =>
      refine ⟨c, by simp, ?_⟩
      simpa using (h c (by simp)).1)]
  rw [hdrop]

theorem encodeSpaces_id (s : Str) (h : ∀ c ∈ s, ¬ c = ' ') : encodeSpaces s = s := by
  induction s with
  | nil => rfl
  | cons c r ih =>
    rw [encodeSpaces, List.flatMap_cons, if_neg (h c (by simp))]
    show c :: encodeSpaces r = c :: r
    rw [ih (fun x hx => h x (by simp [hx]))]

/-- Claim C3, amended: for markdown files whose base names (stems free of
dot, slash and space) differ, the derived item links, hence the guids, do
differ: guid uniqueness holds exactly up to base-name equality. -/
theorem claim_c3_amended (s1 s2 : Str) (hne1 : s1 ≠ []) (hne2 : s2 ≠ [])
    (h1 : ∀ c ∈ s1, ¬ c = '.' ∧ ¬ c = '/' ∧ ¬ c = ' ')
    (h2 : ∀ c ∈ s2, ¬ c = '.' ∧ ¬ c = '/' ∧ ¬ c = ' ')
    (hne : ¬ s1 = s2) :
    ¬ itemLink (htmlFileName (s1 ++ ".md".toList))
      = itemLink (htmlFileName (s2 ++ ".md".toList)) := by
  intro he
  rw [htmlFileName, htmlFileName,
    splitext_md s1 hne1 (fun c hc => ⟨(h1 c hc).1, (h1 c hc).2.1⟩),
    splitext_md s2 hne2 (fun c hc => ⟨(h2 c hc).1, (h2 c hc).2.1⟩)] at he
  rw [itemLink, itemLink] at he
  have he2 := List.append_cancel_left he
  simp only [List.cons.injEq, true_and] at he2
  rw [encodeSpaces_id _ (by
      intro c hc
      rcases List.mem_append.1 hc with hx | hx
      · exact (h1 c hx).2.2
      · exact (by decide : ∀ x ∈ ".html".toList, ¬ x = ' ') c hx),
    encodeSpaces_id _ (by
      intro c hc
      rcases List.mem_append.1 hc with hx | hx
      · exact (h2 c hx).2.2
      · exact (by decide : ∀ x ∈ ".html".toList, ¬ x = ' ') c hx)] at he2
  exact hne (List.append_cancel_right he2)

theorem claim_c3_amended_witness :
    ¬ itemLink (htmlFileName ("a".toList ++ ".md".toList))
      = itemLink (htmlFileName ("b".toList ++ ".md".toList)) :=
  claim_c3_amended "a".toList "b".toList (by decide) (by decide) (by decide)
    (by decide) (by decide)

/-- Claim C7: when the content has no front-matter match (in particular when
it does not begin with `---`), the parser returns the default title, the
current processing date, an empty description, and the body unchanged. -/
theorem claim_c7_defaults (today md : Str) :
    (metaMatch md = none →
      parse_md_metadata today md = (⟨defaultTitle, today, []⟩, md))
    ∧ (¬ ['-', '-', '-'].isPrefixOf md →
      parse_md_metadata today md = (⟨defaultTitle, today, []⟩, md)) := by
  constructor
  · intro h
    rw [parse_md_metadata, h]
  · intro h
    have hm : metaMatch md = none := by
      rw [metaMatch, if_neg h]
    rw [parse_md_metadata, hm]

theorem claim_c7_witness :
    parse_md_metadata "2024-05-20".toList "# Title\nBody text".toList
      = (⟨defaultTitle, "2024-05-20".toList, []⟩, "# Title\nBody text".toList) :=
  (claim_c7_defaults "2024-05-20".toList "# Title\nBody text".toList).2 (by decide)

mutual

theorem processedPaths_filter (p : Str) (t : FTree) :
    processedPaths p t
      = ((allEntries p t).filter (fun e => mdKeep e.2)).map (fun e => e.1) := by
  match t with
  | .node dirs files =>
    rw [processedPaths, allEntries]
    rw [List.filter_append, List.map_append]
    rw [processedDirs_filter p dirs]
    congr 1
    rw [List.filter_map, List.map_map]
    rfl

theorem processedDirs_filter (p : Str) (ds : List (Str × FTree)) :
    processedDirs p ds
      = ((allEntriesDirs p ds).filter (fun e => mdKeep e.2)).map (fun e => e.1) := by
  match ds with
  | [] => rfl
  | (d, t) :: rest =>
    rw [processedDirs, allEntriesDirs]
    rw [List.filter_append, List.map_append]
    rw [processedPaths_filter (pathJoin p d) t, processedDirs_filter p rest]

end

/-- Claim C8: for every starting path and directory tree, the walk loop
processes exactly those entries, at any depth (hidden subdirectories
included), whose file name ends in `.md` and does not start with `.`. -/
theorem claim_c8_discovery (p : Str) (t : FTree) :
    processedPaths p t
      = ((allEntries p t).filter (fun e => mdKeep e.2)).map (fun e => e.1) :=
  processedPaths_filter p t

theorem digit_roundtrip (k : Nat) (hk : k < 10) :
    isDigit (Nat.digitChar k) = true ∧ digitVal (Nat.digitChar k) = k := by
  interval_cases k <;> exact ⟨by decide, by decide⟩

theorem parseY4_pad4 (y : Nat) (hy : y ≤ 9999) (rest : Str) :
    parseY4 (pad4 y ++ rest) = some (y, rest) := by
  have h1 := digit_roundtrip (y / 1000 % 10) (Nat.mod_lt _ (by decide))
  have h2 := digit_roundtrip (y / 100 % 10) (Nat.mod_lt _ (by decide))
  have h3 := digit_roundtrip (y / 10 % 10) (Nat.mod_lt _ (by decide))
  have h4 := digit_roundtrip (y % 10) (Nat.mod_lt _ (by decide))
  show parseY4 (Nat.digitChar (y / 1000 % 10) :: Nat.digitChar (y / 100 % 10)
    :: Nat.digitChar (y / 10 % 10) :: Nat.digitChar (y % 10) :: rest) = some (y, rest)
  rw [parseY4]
  rw [if_pos ⟨h1.1, h2.1, h3.1, h4.1⟩]
  rw [h1.2, h2.2, h3.2, h4.2]
  have hv : ((y / 1000 % 10 * 10 + y / 100 % 10) * 10 + y / 10 % 10) * 10 + y % 10 = y := by
    omega
  rw [hv]

theorem parseMonth_pad2 (m : Nat) (h1 : 1 ≤ m) (h2 : m ≤ 12) (rest : Str) :
    parseMonth (pad2 m ++ rest) = some (m, rest) := by
  interval_cases m <;>
    simp [pad2, parseMonth, headIs, digitVal, Nat.digitChar]

theorem parseDay_pad2 (d : Nat) (h1 : 1 ≤ d) (h2 : d ≤ 31) (rest : Str) :
    parseDay (pad2 d ++ rest) = some (d, rest) := by
  interval_cases d <;>
    simp [pad2, parseDay, headIs, isDigit, digitVal, Nat.digitChar]

theorem daysInMonth_le (y m : Nat) : daysInMonth y m ≤ 31 := by
  rw [daysInMonth]
  split
  · split <;> decide
  · split <;> decide

theorem strptimeYmd_pad (y m d : Nat) (hy1 : 1 ≤ y) (hy2 : y ≤ 9999)
    (hm1 : 1 ≤ m) (hm2 : m ≤ 12) (hd1 : 1 ≤ d) (hd2 : d ≤ daysInMonth y m) :
    strptimeYmd (pad4 y ++ '-' :: (pad2 m ++ '-' :: pad2 d)) = some (y, m, d) := by
  have hd31 : d ≤ 31 := le_trans hd2 (daysInMonth_le y m)
  have hpd : parseDay (pad2 d ++ []) = some (d, []) := parseDay_pad2 d hd1 hd31 []
  rw [List.append_nil] at hpd
  simp [strptimeYmd, parseY4_pad4 y hy2, parseMonth_pad2 m hm1 hm2, hpd, hy1, hd2]

/-- Claim C6: every well-formed `YYYY-MM-DD` date (valid calendar day,
year at most 9999) is rendered as the RFC-822 midnight-UTC string with the
weekday computed from the proleptic-Gregorian ordinal, and every string that
`strptime` rejects falls back to the formatted current UTC time. -/
theorem claim_c6_dates (now : UtcTime) :
    (∀ y m d, 1 ≤ y → y ≤ 9999 → 1 ≤ m → m ≤ 12 → 1 ≤ d → d ≤ daysInMonth y m →
      convert_date_to_rfc822 now (pad4 y ++ '-' :: (pad2 m ++ '-' :: pad2 d))
        = fmt822 y m d)
    ∧ ∀ s, strptimeYmd s = none → convert_date_to_rfc822 now s = fmtNow now := by
  constructor
  · intro y m d hy1 hy2 hm1 hm2 hd1 hd2
    rw [convert_date_to_rfc822, strptimeYmd_pad y m d hy1 hy2 hm1 hm2 hd1 hd2]
  · intro s h
    rw [convert_date_to_rfc822, h]

theorem claim_c6_witness :
    convert_date_to_rfc822 ⟨2025, 1, 1, 0, 0, 0⟩
        (pad4 2024 ++ '-' :: (pad2 5 ++ '-' :: pad2 20))
      = "Mon, 20 May 2024 00:00:00 GMT".toList
    ∧ convert_date_to_rfc822 ⟨2025, 1, 1, 0, 0, 0⟩ "2024-13-01".toList
      = fmtNow ⟨2025, 1, 1, 0, 0, 0⟩ :=
  ⟨((claim_c6_dates ⟨2025, 1, 1, 0, 0, 0⟩).1 2024 5 20 (by decide) (by decide)
      (by decide) (by decide) (by decide) (by decide)).trans (by decide),
   (claim_c6_dates ⟨2025, 1, 1, 0, 0, 0⟩).2 "2024-13-01".toList (by decide)⟩

theorem scanValue_run : ∀ (v : Str) (acc rest : Str),
    (∀ c ∈ v, ¬ c = '"' ∧ ¬ c = '\'' ∧ ¬ c = '\n') →
    scanValue acc (v ++ '"' :: rest) = some (acc.reverse ++ v) := by
  intro v
  induction v with
  | nil =>
    intro acc rest _
    rw [List.nil_append, scanValue, if_pos (Or.inl rfl)]
    simp
  | cons c v ih =>
    intro acc rest hv
    have hc := hv c (by simp)
    rw [List.cons_append, scanValue]
    rw [if_neg (by
      intro hx
      rcases hx with hx | hx
      · exact hc.1 hx
      · exact hc.2.1 hx)]
    rw [if_neg hc.2.2]
    rw [ih (c :: acc) rest (fun x hx => hv x (by simp [hx]))]
    simp

theorem dropWhile_head_not {p : Char → Bool} :
    ∀ (l : Str) (c : Char) (cs : Str), l.dropWhile p = c :: cs → ¬ p c := by
  intro l
  induction l with
  | nil => intro c cs h; simp at h
  | cons x xs ih =>
    intro c cs h
    rw [List.dropWhile_cons] at h
    by_cases hx : p x
    · rw [if_pos hx] at h
      exact ih c cs h
    · rw [if_neg hx] at h
      cases h
      exact hx

theorem fieldValueAt_found (sp v rest : Str) (hsp : ∀ c ∈ sp, isSpace c)
    (hv : ∀ c ∈ v, ¬ c = '"' ∧ ¬ c = '\'' ∧ ¬ c = '\n') :
    fieldValueAt (sp ++ '"' :: (v ++ '"' :: rest)) = some v := by
  rw [fieldValueAt]
  have hskip : skipSpaces (sp ++ '"' :: (v ++ '"' :: rest)) = '"' :: (v ++ '"' :: rest) := by
    rw [skipSpaces, dropWhile_append_of_all sp _ hsp]
    rw [List.dropWhile_cons, if_neg (by decide)]
  rw [hskip]
  show (if ('"' : Char) = '"' ∨ ('"' : Char) = '\'' then scanValue [] (v ++ '"' :: rest)
    else none) = some v
  rw [if_pos (Or.inl rfl)]
  rw [scanValue_run v [] rest hv]
  simp

theorem fieldValueAt_seg (w z : Str) (hw : ∀ c ∈ w, ¬ c = '"' ∧ ¬ c = '\'') :
    fieldValueAt (w ++ '"' :: '\n' :: z) = none := by
  rw [fieldValueAt]
  cases hds : w.dropWhile isSpace with
  | nil =>
    have hskip : skipSpaces (w ++ '"' :: '\n' :: z) = '"' :: '\n' :: z := by
      rw [skipSpaces, List.dropWhile_append, hds]
      simp [List.dropWhile_cons, (by decide : isSpace '"' = false)]
    rw [hskip]
    show (if ('"' : Char) = '"' ∨ ('"' : Char) = '\'' then scanValue [] ('\n' :: z)
      else none) = none
    rw [if_pos (Or.inl rfl)]
    rw [scanValue, if_neg (by decide), if_pos rfl]
  | cons c cs =>
    have hcw : c ∈ w := (List.dropWhile_sublist isSpace (l := w)).mem (hds ▸ List.mem_cons_self c cs)
    have hcns : ¬ isSpace c := dropWhile_head_not w c cs hds
    have hskip : skipSpaces (w ++ '"' :: '\n' :: z) = c :: (cs ++ '"' :: '\n' :: z) := by
      rw [skipSpaces, List.dropWhile_append, hds]
      simp
    rw [hskip]
    show (if c = '"' ∨ c = '\'' then scanValue [] (cs ++ '"' :: '\n' :: z) else none) = none
    rw [if_neg (by
      intro hx
      rcases hx with hx | hx
      · exact (hw c hcw).1 hx
      · exact (hw c hcw).2 hx)]

theorem searchField_skip1 (key : Str) (c : Char) (rest : Str)
    (h : ¬ key.isPrefixOf (c :: rest) = true) :
    searchField key (c :: rest) = searchField key rest := by
  rw [searchField, if_neg h]

theorem searchField_skip_val (key : Str) (k0 : Char) (ks : Str) (hkey : key = k0 :: ks)
    (hkq : ∀ c ∈ key, ¬ c = '"') :
    ∀ (val : Str), (∀ c ∈ val, ¬ c = '"' ∧ ¬ c = '\'') → ∀ (z : Str),
      searchField key (val ++ '"' :: '\n' :: z) = searchField key ('\n' :: z) := by
  intro val
  induction val with
  | nil =>
    intro _ z
    rw [List.nil_append]
    apply searchField_skip1
    rw [hkey]
    intro hx
    rw [List.isPrefixOf] at hx
    rw [Bool.and_eq_true] at hx
    exact hkq k0 (by simp [hkey]) (by simpa using hx.1)
  | cons c v ih =>
    intro hv z
    rw [List.cons_append, searchField]
    by_cases hpre : key.isPrefixOf (c :: (v ++ '"' :: '\n' :: z)) = true
    · rw [if_pos hpre]
      have hlen : key.length ≤ (c :: v).length := by
        by_contra hlt
        push_neg at hlt
        have hpre2 : key <+: ((c :: v) ++ '"' :: '\n' :: z) := by
          rw [← List.isPrefixOf_iff_prefix]
          exact hpre
        have hcv : (c :: v) <+: ((c :: v) ++ '"' :: '\n' :: z) := List.prefix_append _ _
        have h3 : (c :: v) <+: key :=
          List.prefix_of_prefix_length_le hcv hpre2 (by omega)
        obtain ⟨k2, hk2⟩ := h3
        obtain ⟨t, ht⟩ := hpre2
        rw [← hk2] at ht
        rw [List.append_assoc] at ht
        have h4 := List.append_cancel_left ht
        cases k2 with
        | nil =>
          rw [← hk2] at hlt
          simp at hlt
        | cons q0 k3 =>
          have hq0 : q0 = '"' := by
            rw [List.cons_append] at h4
            injection h4 with h5 h6
          exact hkq '"' (by rw [← hk2, ← hq0]; simp) rfl
      have hdrop : (c :: (v ++ '"' :: '\n' :: z)).drop key.length
          = ((c :: v).drop key.length) ++ '"' :: '\n' :: z := by
        rw [← List.cons_append]
        rw [List.drop_append_of_le_length hlen]
      rw [hdrop]
      rw [fieldValueAt_seg _ z (fun x hx => hv x (List.drop_subset _ _ hx))]
      exact ih (fun x hx => hv x (by simp [hx])) z
    · rw [if_neg hpre]
      exact ih (fun x hx => hv x (by simp [hx])) z

theorem searchField_found (key sp v rest : Str) (k0 : Char) (ks : Str)
    (hkey : key = k0 :: ks)
    (hsp : ∀ c ∈ sp, isSpace c)
    (hv : ∀ c ∈ v, ¬ c = '"' ∧ ¬ c = '\'' ∧ ¬ c = '\n') :
    searchField key (key ++ (sp ++ '"' :: (v ++ '"' :: rest))) = some v := by
  have hX : key ++ (sp ++ '"' :: (v ++ '"' :: rest))
      = k0 :: (ks ++ (sp ++ '"' :: (v ++ '"' :: rest))) := by rw [hkey]; rfl
  rw [hX, searchField]
  rw [if_pos (show key.isPrefixOf (k0 :: (ks ++ (sp ++ '"' :: (v ++ '"' :: rest)))) = true by
    rw [hkey]
    exact List.isPrefixOf_iff_prefix.2 ⟨_, rfl⟩)]
  have hdrop : (k0 :: (ks ++ (sp ++ '"' :: (v ++ '"' :: rest)))).drop key.length
      = sp ++ '"' :: (v ++ '"' :: rest) := by
    rw [← hX, List.drop_left]
  rw [hdrop]
  rw [fieldValueAt_found sp v rest hsp hv]

theorem wsNlSplits_nonws (c : Char) (hc1 : ¬ c = '\n') (hc2 : ¬ isSpace c) (r : Str) :
    wsNlSplits (c :: r) = [] := by
  rw [wsNlSplits, if_neg hc1, if_neg hc2]

theorem scanInner_step (acc : Str) (c : Char) (hc : ¬ c = '\n') (r : Str) :
    scanInner acc (c :: r) = scanInner (c :: acc) r := by
  rw [scanInner]
  rw [if_neg (by
    intro hx
    rw [List.isPrefixOf, Bool.and_eq_true] at hx
    have h1 : '\n' = c := by simpa using hx.1
    exact hc h1.symm)]

theorem scanInner_nl_step (acc : Str) (c2 : Char) (hc2 : ¬ c2 = '-') (r : Str) :
    scanInner acc ('\n' :: c2 :: r) = scanInner ('\n' :: acc) (c2 :: r) := by
  rw [scanInner]
  rw [if_neg (by
    intro hx
    rw [List.isPrefixOf, Bool.and_eq_true] at hx
    have hx2 := hx.2
    rw [List.isPrefixOf, Bool.and_eq_true] at hx2
    have h1 : '-' = c2 := by simpa using hx2.1
    exact hc2 h1.symm)]

theorem scanInner_nlfree : ∀ (seg : Str), (∀ c ∈ seg, ¬ c = '\n') →
    ∀ (acc z : Str), scanInner acc (seg ++ z) = scanInner (seg.reverse ++ acc) z := by
  intro seg
  induction seg with
  | nil => intro _ acc z; simp
  | cons c cs ih =>
    intro h acc z
    rw [List.cons_append]
    rw [scanInner_step acc c (h c (by simp)) (cs ++ z)]
    rw [ih (fun x hx => h x (by simp [hx])) (c :: acc) z]
    simp

theorem scanInner_hit (acc body : Str) (hb : wsNlSplits body = []) :
    scanInner acc ('\n' :: '-' :: '-' :: '-' :: '\n' :: body) = some (acc.reverse, body) := by
  rw [scanInner]
  rw [if_pos (show (['\n', '-', '-', '-'].isPrefixOf
    ('\n' :: '-' :: '-' :: '-' :: '\n' :: body)) = true from rfl)]
  have hws : (wsNlSplits (('\n' :: '-' :: '-' :: '-' :: '\n' :: body).drop 4)).head?
      = some body := by
    show (wsNlSplits ('\n' :: body)).head? = some body
    rw [wsNlSplits, if_pos rfl, hb, List.nil_append]
    rfl
  rw [hws]

theorem metaMatch_pre (first : Char) (hf1 : ¬ first = '\n') (hf2 : ¬ isSpace first)
    (rest0 : Str) :
    metaMatch ('-' :: '-' :: '-' :: '\n' :: first :: rest0)
      = scanInner [] (first :: rest0) := by
  rw [metaMatch]
  rw [if_pos (show (['-', '-', '-'].isPrefixOf
    ('-' :: '-' :: '-' :: '\n' :: first :: rest0)) = true from rfl)]
  have hdrop : ('-' :: '-' :: '-' :: '\n' :: first :: rest0).drop 3
      = '\n' :: first :: rest0 := rfl
  rw [hdrop]
  rw [wsNlSplits, if_pos rfl]
  rw [wsNlSplits_nonws first hf1 hf2, List.nil_append]
  cases hsc : scanInner [] (first :: rest0) with
  | none => simp [List.findSome?_cons, hsc]
  | some v => simp [List.findSome?_cons, hsc]

theorem title_flat (X : Str) :
    "title:".toList ++ X = 't' :: 'i' :: 't' :: 'l' :: 'e' :: ':' :: X := rfl

theorem date_flat (X : Str) :
    "date:".toList ++ X = 'd' :: 'a' :: 't' :: 'e' :: ':' :: X := rfl

theorem desc_flat (X : Str) :
    "description:".toList ++ X
      = 'd' :: 'e' :: 's' :: 'c' :: 'r' :: 'i' :: 'p' :: 't' :: 'i' :: 'o' :: 'n'
        :: ':' :: X := rfl

theorem searchField_found1 (key v rest : Str) (k0 : Char) (ks : Str)
    (hkey : key = k0 :: ks)
    (hv : ∀ c ∈ v, ¬ c = '"' ∧ ¬ c = '\'' ∧ ¬ c = '\n') :
    searchField key (key ++ (' ' :: '"' :: (v ++ '"' :: rest))) = some v :=
  searchField_found key [' '] v rest k0 ks hkey (by decide) hv

theorem lit1_flat (X : Str) : "---\ntitle: \"".toList ++ X
    = '-' :: '-' :: '-' :: '\n' :: 't' :: 'i' :: 't' :: 'l' :: 'e' :: ':' :: ' ' :: '"' :: X := rfl

theorem lit2_flat (X : Str) : "\"\ndate: \"".toList ++ X
    = '"' :: '\n' :: 'd' :: 'a' :: 't' :: 'e' :: ':' :: ' ' :: '"' :: X := rfl

theorem lit3_flat (X : Str) : "\"\ndescription: \"".toList ++ X
    = '"' :: '\n' :: 'd' :: 'e' :: 's' :: 'c' :: 'r' :: 'i' :: 'p' :: 't' :: 'i' :: 'o'
      :: 'n' :: ':' :: ' ' :: '"' :: X := rfl

theorem lit4_flat (X : Str) : "\"\n---\n".toList ++ X
    = '"' :: '\n' :: '-' :: '-' :: '-' :: '\n' :: X := rfl

theorem parse_md_metadata_some (today md inner rest : Str)
    (h : metaMatch md = some (inner, rest)) :
    parse_md_metadata today md
      = (⟨(searchField "title:".toList inner).getD defaultTitle,
          (searchField "date:".toList inner).getD today,
          (searchField "description:".toList inner).getD []⟩, pyStrip rest) := by
  rw [parse_md_metadata, h]

/-- Claim C5: for content that begins with a well-formed front-matter block
(`---` marker lines around quoted `title`, `date`, `description` fields whose
values are free of quotes and newlines, body not starting with blank space),
the parser returns exactly the three quoted values and strips the whole block
from the body. -/
theorem claim_c5_front_matter (today T D S body : Str)
    (hT : ∀ c ∈ T, ¬ c = '"' ∧ ¬ c = '\'' ∧ ¬ c = '\n')
    (hD : ∀ c ∈ D, ¬ c = '"' ∧ ¬ c = '\'' ∧ ¬ c = '\n')
    (hS : ∀ c ∈ S, ¬ c = '"' ∧ ¬ c = '\'' ∧ ¬ c = '\n')
    (hb : wsNlSplits body = []) :
    parse_md_metadata today
        ("---\ntitle: \"".toList ++ T ++ "\"\ndate: \"".toList ++ D
          ++ "\"\ndescription: \"".toList ++ S ++ "\"\n---\n".toList ++ body)
      = (⟨T, D, S⟩, pyStrip body) := by
  have hTn : ∀ c ∈ T, ¬ c = '\n' := fun c hc => (hT c hc).2.2
  have hDn : ∀ c ∈ D, ¬ c = '\n' := fun c hc => (hD c hc).2.2
  have hSn : ∀ c ∈ S, ¬ c = '\n' := fun c hc => (hS c hc).2.2
  have hTq : ∀ c ∈ T, ¬ c = '"' ∧ ¬ c = '\'' := fun c hc => ⟨(hT c hc).1, (hT c hc).2.1⟩
  have hDq : ∀ c ∈ D, ¬ c = '"' ∧ ¬ c = '\'' := fun c hc => ⟨(hD c hc).1, (hD c hc).2.1⟩
  simp only [List.append_assoc]
  rw [lit1_flat, lit2_flat, lit3_flat, lit4_flat]
  have hmeta : metaMatch ('-' :: '-' :: '-' :: '\n' :: 't' :: 'i' :: 't' :: 'l' :: 'e' :: ':' :: ' ' :: '\"' :: (T ++ ('\"' :: '\n' :: 'd' :: 'a' :: 't' :: 'e' :: ':' :: ' ' :: '\"' :: (D ++ ('\"' :: '\n' :: 'd' :: 'e' :: 's' :: 'c' :: 'r' :: 'i' :: 'p' :: 't' :: 'i' :: 'o' :: 'n' :: ':' :: ' ' :: '\"' :: (S ++ ('\"' :: '\n' :: '-' :: '-' :: '-' :: '\n' :: body)))))))
      = some ('t' :: 'i' :: 't' :: 'l' :: 'e' :: ':' :: ' ' :: '\"' :: (T ++ ('\"' :: '\n' :: 'd' :: 'a' :: 't' :: 'e' :: ':' :: ' ' :: '\"' :: (D ++ ('\"' :: '\n' :: 'd' :: 'e' :: 's' :: 'c' :: 'r' :: 'i' :: 'p' :: 't' :: 'i' :: 'o' :: 'n' :: ':' :: ' ' :: '\"' :: (S ++ ['\"']))))), body) := by
    rw [metaMatch_pre 't' (by decide) (by decide)]
    rw [scanInner_step _ 't' (by decide)]
    rw [scanInner_step _ 'i' (by decide)]
    rw [scanInner_step _ 't' (by decide)]
    rw [scanInner_step _ 'l' (by decide)]
    rw [scanInner_step _ 'e' (by decide)]
    rw [scanInner_step _ ':' (by decide)]
    rw [scanInner_step _ ' ' (by decide)]
    rw [scanInner_step _ '\"' (by decide)]
    rw [scanInner_nlfree T hTn]
    rw [scanInner_step _ '\"' (by decide)]
    rw [scanInner_nl_step _ 'd' (by decide)]
    rw [scanInner_step _ 'd' (by decide)]
    rw [scanInner_step _ 'a' (by decide)]
    rw [scanInner_step _ 't' (by decide)]
    rw [scanInner_step _ 'e' (by decide)]
    rw [scanInner_step _ ':' (by decide)]
    rw [scanInner_step _ ' ' (by decide)]
    rw [scanInner_step _ '\"' (by decide)]
    rw [scanInner_nlfree D hDn]
    rw [scanInner_step _ '\"' (by decide)]
    rw [scanInner_nl_step _ 'd' (by decide)]
    rw [scanInner_step _ 'd' (by decide)]
    rw [scanInner_step _ 'e' (by decide)]
    rw [scanInner_step _ 's' (by decide)]
    rw [scanInner_step _ 'c' (by decide)]
    rw [scanInner_step _ 'r' (by decide)]
    rw [scanInner_step _ 'i' (by decide)]
    rw [scanInner_step _ 'p' (by decide)]
    rw [scanInner_step _ 't' (by decide)]
    rw [scanInner_step _ 'i' (by decide)]
    rw [scanInner_step _ 'o' (by decide)]
    rw [scanInner_step _ 'n' (by decide)]
    rw [scanInner_step _ ':' (by decide)]
    rw [scanInner_step _ ' ' (by decide)]
    rw [scanInner_step _ '\"' (by decide)]
    rw [scanInner_nlfree S hSn]
    rw [scanInner_step _ '\"' (by decide)]
    rw [scanInner_hit _ body hb]
    simp only [List.reverse_cons, List.reverse_append, List.reverse_reverse,
      List.reverse_nil, List.append_assoc, List.cons_append, List.nil_append,
      List.append_nil]
  rw [parse_md_metadata_some today _ _ body hmeta]
  have hsk1 : ∀ z : Str, searchField "date:".toList
      ('t' :: 'i' :: 't' :: 'l' :: 'e' :: ':' :: ' ' :: '\"' :: (T ++ ('\"' :: '\n' :: z)))
      = searchField "date:".toList z := by
    intro z
    rw [searchField_skip1 _ 't' _ (fun h => Bool.noConfusion h)]
    rw [searchField_skip1 _ 'i' _ (fun h => Bool.noConfusion h)]
    rw [searchField_skip1 _ 't' _ (fun h => Bool.noConfusion h)]
    rw [searchField_skip1 _ 'l' _ (fun h => Bool.noConfusion h)]
    rw [searchField_skip1 _ 'e' _ (fun h => Bool.noConfusion h)]
    rw [searchField_skip1 _ ':' _ (fun h => Bool.noConfusion h)]
    rw [searchField_skip1 _ ' ' _ (fun h => Bool.noConfusion h)]
    rw [searchField_skip1 _ '\"' _ (fun h => Bool.noConfusion h)]
    rw [searchField_skip_val "date:".toList 'd' "ate:".toList rfl (by decide) T hTq z]
    rw [searchField_skip1 _ '\n' _ (fun h => Bool.noConfusion h)]
  have hsk2 : ∀ z : Str, searchField "description:".toList
      ('t' :: 'i' :: 't' :: 'l' :: 'e' :: ':' :: ' ' :: '\"' :: (T ++ ('\"' :: '\n' :: z)))
      = searchField "description:".toList z := by
    intro z
    rw [searchField_skip1 _ 't' _ (fun h => Bool.noConfusion h)]
    rw [searchField_skip1 _ 'i' _ (fun h => Bool.noConfusion h)]
    rw [searchField_skip1 _ 't' _ (fun h => Bool.noConfusion h)]
    rw [searchField_skip1 _ 'l' _ (fun h => Bool.noConfusion h)]
    rw [searchField_skip1 _ 'e' _ (fun h => Bool.noConfusion h)]
    rw [searchField_skip1 _ ':' _ (fun h => Bool.noConfusion h)]
    rw [searchField_skip1 _ ' ' _ (fun h => Bool.noConfusion h)]
    rw [searchField_skip1 _ '\"' _ (fun h => Bool.noConfusion h)]
    rw [searchField_skip_val "description:".toList 'd' "escription:".toList rfl
      (by decide) T hTq z]
    rw [searchField_skip1 _ '\n' _ (fun h => Bool.noConfusion h)]
  have hsk3 : ∀ z : Str, searchField "description:".toList
      ('d' :: 'a' :: 't' :: 'e' :: ':' :: ' ' :: '\"' :: (D ++ ('\"' :: '\n' :: z)))
      = searchField "description:".toList z := by
    intro z
    rw [searchField_skip1 _ 'd' _ (fun h => Bool.noConfusion h)]
    rw [searchField_skip1 _ 'a' _ (fun h => Bool.noConfusion h)]
    rw [searchField_skip1 _ 't' _ (fun h => Bool.noConfusion h)]
    rw [searchField_skip1 _ 'e' _ (fun h => Bool.noConfusion h)]
    rw [searchField_skip1 _ ':' _ (fun h => Bool.noConfusion h)]
    rw [searchField_skip1 _ ' ' _ (fun h => Bool.noConfusion h)]
    rw [searchField_skip1 _ '\"' _ (fun h => Bool.noConfusion h)]
    rw [searchField_skip_val "description:".toList 'd' "escription:".toList rfl
      (by decide) D hDq z]
    rw [searchField_skip1 _ '\n' _ (fun h => Bool.noConfusion h)]
  rw [hsk1, hsk2, hsk3]
  simp only [← title_flat, ← date_flat, ← desc_flat]
  rw [searchField_found1 "title:".toList T _ 't' "itle:".toList rfl hT]
  rw [searchField_found1 "date:".toList D _ 'd' "ate:".toList rfl hD]
  rw [searchField_found1 "description:".toList S _ 'd' "escription:".toList rfl hS]
  simp

theorem claim_c5_witness :
    parse_md_metadata "2025-01-01".toList
        ("---\ntitle: \"".toList ++ "Hello".toList ++ "\"\ndate: \"".toList
          ++ "2024-05-20".toList ++ "\"\ndescription: \"".toList ++ "Hi".toList
          ++ "\"\n---\n".toList ++ "Body".toList)
      = (⟨"Hello".toList, "2024-05-20".toList, "Hi".toList⟩, pyStrip "Body".toList) :=
  claim_c5_front_matter "2025-01-01".toList "Hello".toList "2024-05-20".toList
    "Hi".toList "Body".toList (by decide) (by decide) (by decide) (by decide)

end GenRss
